import Mathlib

/-!
Verification development for the cube solver repository (facelet cube model +
Kociemba two-phase solver).  The definitions below are a shallow embedding of
the C++ sources: `cube.cpp` / `cube.h` (facelet engine, piece decoding,
solvability check) and `solver.cpp` (coordinate codec, move records, two-phase
search).  Machine integers are modelled as `Nat`/`Int` with explicit wrapping
where the C++ code can wrap; in-place array mutation is modelled by pure
functions from index to value.
-/

set_option maxRecDepth 10000
set_option maxHeartbeats 1000000

namespace Rubcs

/-- The six sticker colors, in the declaration order of `enum class Color`. -/
inductive Color where
  | White | Yellow | Red | Orange | Green | Blue
  deriving DecidableEq, Repr

instance : Fintype Color :=
  ⟨⟨{.White, .Yellow, .Red, .Orange, .Green, .Blue}, by decide⟩, by intro x; cases x <;> decide⟩

/-- The 18 face moves, in the declaration order of `enum class Move`
(indices 0..17: `U,U',U2, D,D',D2, L,L',L2, R,R',R2, F,F',F2, B,B',B2`). -/
inductive Move where
  | U | Up | U2 | D | Dp | D2 | L | Lp | L2 | R | Rp | R2 | F | Fp | F2 | B | Bp | B2
  deriving DecidableEq, Repr

instance : Fintype Move :=
  ⟨⟨{.U, .Up, .U2, .D, .Dp, .D2, .L, .Lp, .L2, .R, .Rp, .R2, .F, .Fp, .F2, .B, .Bp, .B2},
    by decide⟩, by intro x; cases x <;> decide⟩

/-- Move index, `static_cast<int>(m)`. -/
def Move.idx : Move → ℕ
  | .U => 0 | .Up => 1 | .U2 => 2
  | .D => 3 | .Dp => 4 | .D2 => 5
  | .L => 6 | .Lp => 7 | .L2 => 8
  | .R => 9 | .Rp => 10 | .R2 => 11
  | .F => 12 | .Fp => 13 | .F2 => 14
  | .B => 15 | .Bp => 16 | .B2 => 17

/-- `static_cast<Move>(n)` for `n` in range (out-of-range is UB in the C++;
we map it to `U`, it is never used out of range). -/
def Move.ofIdx : ℕ → Move
  | 0 => .U | 1 => .Up | 2 => .U2
  | 3 => .D | 4 => .Dp | 5 => .D2
  | 6 => .L | 7 => .Lp | 8 => .L2
  | 9 => .R | 10 => .Rp | 11 => .R2
  | 12 => .F | 13 => .Fp | 14 => .F2
  | 15 => .B | 16 => .Bp | 17 => .B2
  | _ => .U

/-- Face indices, `enum Face { FACE_U = 0, FACE_D, FACE_L, FACE_R, FACE_F, FACE_B }`. -/
def FACE_U : Fin 6 := 0
def FACE_D : Fin 6 := 1
def FACE_L : Fin 6 := 2
def FACE_R : Fin 6 := 3
def FACE_F : Fin 6 := 4
def FACE_B : Fin 6 := 5

/-- Global facelet index `I(face, pos) = face * 9 + pos`. -/
def I (face : Fin 6) (pos : Fin 9) : Fin 54 :=
  ⟨face.val * 9 + pos.val, by omega⟩

/-- A cube state: the 54-element facelet array `state_`. -/
def CubeState := Fin 54 → Color

/-- `Cube::cycle4(a,b,c,d)` moves the value at `a` to `b`, `b` to `c`, `c` to
`d` and `d` to `a` (via `tmp`).  Modelled as: the new value at each cell is the
old value at the cell that feeds it. -/
def cycle4Idx (a b c d : Fin 54) : Fin 54 → Fin 54 := fun i =>
  if i = d then c else if i = c then b else if i = b then a else if i = a then d else i

def cycle4 (a b c d : Fin 54) (s : Fin 54 → α) : Fin 54 → α :=
  fun i => s (cycle4Idx a b c d i)

/-- `Cube::rotateFaceCW`: the two in-place 4-cycles on face positions
`{0,2,8,6}` and `{1,5,7,3}` (value at 6 moves to 0, at 8 to 6, ...). -/
def rotateFaceCW (f : Fin 6) (s : Fin 54 → α) : Fin 54 → α :=
  cycle4 (I f 1) (I f 5) (I f 7) (I f 3) (cycle4 (I f 0) (I f 2) (I f 8) (I f 6) s)

/-- The six clockwise quarter turns of `Cube::applyMove` (face rotation followed
by the three adjacent 4-cycles, exactly the index arguments of the source). -/
def moveU (s : Fin 54 → α) : Fin 54 → α :=
  cycle4 (I FACE_F 2) (I FACE_L 2) (I FACE_B 2) (I FACE_R 2)
    (cycle4 (I FACE_F 1) (I FACE_L 1) (I FACE_B 1) (I FACE_R 1)
      (cycle4 (I FACE_F 0) (I FACE_L 0) (I FACE_B 0) (I FACE_R 0)
        (rotateFaceCW FACE_U s)))

def moveD (s : Fin 54 → α) : Fin 54 → α :=
  cycle4 (I FACE_F 8) (I FACE_R 8) (I FACE_B 8) (I FACE_L 8)
    (cycle4 (I FACE_F 7) (I FACE_R 7) (I FACE_B 7) (I FACE_L 7)
      (cycle4 (I FACE_F 6) (I FACE_R 6) (I FACE_B 6) (I FACE_L 6)
        (rotateFaceCW FACE_D s)))

def moveL (s : Fin 54 → α) : Fin 54 → α :=
  cycle4 (I FACE_U 6) (I FACE_F 6) (I FACE_D 6) (I FACE_B 2)
    (cycle4 (I FACE_U 3) (I FACE_F 3) (I FACE_D 3) (I FACE_B 5)
      (cycle4 (I FACE_U 0) (I FACE_F 0) (I FACE_D 0) (I FACE_B 8)
        (rotateFaceCW FACE_L s)))

def moveR (s : Fin 54 → α) : Fin 54 → α :=
  cycle4 (I FACE_U 8) (I FACE_B 0) (I FACE_D 8) (I FACE_F 8)
    (cycle4 (I FACE_U 5) (I FACE_B 3) (I FACE_D 5) (I FACE_F 5)
      (cycle4 (I FACE_U 2) (I FACE_B 6) (I FACE_D 2) (I FACE_F 2)
        (rotateFaceCW FACE_R s)))

def moveF (s : Fin 54 → α) : Fin 54 → α :=
  cycle4 (I FACE_U 8) (I FACE_R 6) (I FACE_D 0) (I FACE_L 2)
    (cycle4 (I FACE_U 7) (I FACE_R 3) (I FACE_D 1) (I FACE_L 5)
      (cycle4 (I FACE_U 6) (I FACE_R 0) (I FACE_D 2) (I FACE_L 8)
        (rotateFaceCW FACE_F s)))

def moveB (s : Fin 54 → α) : Fin 54 → α :=
  cycle4 (I FACE_U 0) (I FACE_L 6) (I FACE_D 8) (I FACE_R 2)
    (cycle4 (I FACE_U 1) (I FACE_L 3) (I FACE_D 7) (I FACE_R 5)
      (cycle4 (I FACE_U 2) (I FACE_L 0) (I FACE_D 6) (I FACE_R 8)
        (rotateFaceCW FACE_B s)))

/-- `Cube::applyMove`: primed moves are three CW turns, half turns two. -/
def applyMove (m : Move) (s : Fin 54 → α) : Fin 54 → α :=
  match m with
  | .U => moveU s | .Up => moveU (moveU (moveU s)) | .U2 => moveU (moveU s)
  | .D => moveD s | .Dp => moveD (moveD (moveD s)) | .D2 => moveD (moveD s)
  | .L => moveL s | .Lp => moveL (moveL (moveL s)) | .L2 => moveL (moveL s)
  | .R => moveR s | .Rp => moveR (moveR (moveR s)) | .R2 => moveR (moveR s)
  | .F => moveF s | .Fp => moveF (moveF (moveF s)) | .F2 => moveF (moveF s)
  | .B => moveB s | .Bp => moveB (moveB (moveB s)) | .B2 => moveB (moveB s)

/-- The facelet source-index permutation of a move: `applyMove m s = s ∘ movePerm m`. -/
def movePerm (m : Move) : Fin 54 → Fin 54 := applyMove m (fun i => i)

theorem applyMove_eq (m : Move) (s : Fin 54 → α) :
    applyMove m s = fun i => s (movePerm m i) := by
  cases m <;> rfl

/-- Map face indices to home colors, `kFaceColor` in `Cube::reset`. -/
def kFaceColor : Fin 6 → Color
  | 0 => .White | 1 => .Yellow | 2 => .Green | 3 => .Blue | 4 => .Red | 5 => .Orange

/-- `Cube::reset()`: every facelet of face `f` gets `kFaceColor f`. -/
def solvedCube : CubeState := fun i => kFaceColor ⟨i.val / 9, by omega⟩

/-- `Cube::inverseMove`. -/
def inverseMove (m : Move) : Move :=
  let idx := m.idx
  let face := idx / 3
  let ty := idx % 3
  if ty = 0 then Move.ofIdx (face * 3 + 1)
  else if ty = 1 then Move.ofIdx (face * 3)
  else m

/-- Apply a list of moves in order (`for m in ms: cube.applyMove(m)`). -/
def applyMoves (ms : List Move) (s : CubeState) : CubeState :=
  ms.foldl (fun t m => applyMove m t) s

/-- `cornerFacelets`: the three facelets of each of the 8 corners
`URF, UFL, ULB, UBR, DFR, DLF, DBL, DRB` (U/D facelet first, then clockwise). -/
def cornerFacelets : Fin 8 → Fin 3 → Fin 54
  | 0 => ![I FACE_U 8, I FACE_R 0, I FACE_F 2]
  | 1 => ![I FACE_U 6, I FACE_F 0, I FACE_L 2]
  | 2 => ![I FACE_U 0, I FACE_L 0, I FACE_B 2]
  | 3 => ![I FACE_U 2, I FACE_B 0, I FACE_R 2]
  | 4 => ![I FACE_D 2, I FACE_F 8, I FACE_R 6]
  | 5 => ![I FACE_D 0, I FACE_L 8, I FACE_F 6]
  | 6 => ![I FACE_D 6, I FACE_B 8, I FACE_L 6]
  | 7 => ![I FACE_D 8, I FACE_R 8, I FACE_B 6]

/-- `cornerColors`: the solved colors of each corner. -/
def cornerColors : Fin 8 → Fin 3 → Color
  | 0 => ![.White, .Blue, .Red]
  | 1 => ![.White, .Red, .Green]
  | 2 => ![.White, .Green, .Orange]
  | 3 => ![.White, .Orange, .Blue]
  | 4 => ![.Yellow, .Red, .Blue]
  | 5 => ![.Yellow, .Green, .Red]
  | 6 => ![.Yellow, .Orange, .Green]
  | 7 => ![.Yellow, .Blue, .Orange]

/-- `edgeFacelets`: the two facelets of each of the 12 edges
`UR, UF, UL, UB, DR, DF, DL, DB, FR, FL, BL, BR`. -/
def edgeFacelets : Fin 12 → Fin 2 → Fin 54
  | 0 => ![I FACE_U 5, I FACE_R 1]
  | 1 => ![I FACE_U 7, I FACE_F 1]
  | 2 => ![I FACE_U 3, I FACE_L 1]
  | 3 => ![I FACE_U 1, I FACE_B 1]
  | 4 => ![I FACE_D 5, I FACE_R 7]
  | 5 => ![I FACE_D 1, I FACE_F 7]
  | 6 => ![I FACE_D 3, I FACE_L 7]
  | 7 => ![I FACE_D 7, I FACE_B 7]
  | 8 => ![I FACE_F 5, I FACE_R 3]
  | 9 => ![I FACE_F 3, I FACE_L 5]
  | 10 => ![I FACE_B 5, I FACE_L 3]
  | 11 => ![I FACE_B 3, I FACE_R 5]

/-- `edgeColors`: the solved colors of each edge. -/
def edgeColors : Fin 12 → Fin 2 → Color
  | 0 => ![.White, .Blue]
  | 1 => ![.White, .Red]
  | 2 => ![.White, .Green]
  | 3 => ![.White, .Orange]
  | 4 => ![.Yellow, .Blue]
  | 5 => ![.Yellow, .Red]
  | 6 => ![.Yellow, .Green]
  | 7 => ![.Yellow, .Orange]
  | 8 => ![.Red, .Blue]
  | 9 => ![.Red, .Green]
  | 10 => ![.Orange, .Green]
  | 11 => ![.Orange, .Blue]

/-- The color triple currently at corner position `pos`. -/
def tripleAt (s : CubeState) (pos : Fin 8) : Fin 3 → Color :=
  fun k => s (cornerFacelets pos k)

/-- The color pair currently at edge position `pos`. -/
def pairAt (s : CubeState) (pos : Fin 12) : Fin 2 → Color :=
  fun k => s (edgeFacelets pos k)

/-- The matching test of `Cube::getCornerPermutation`: all three facelet colors
occur among corner `c`'s colors, and the three are pairwise different. -/
def cornerMatch (t : Fin 3 → Color) (c : Fin 8) : Bool :=
  decide ((t 0 = cornerColors c 0 ∨ t 0 = cornerColors c 1 ∨ t 0 = cornerColors c 2) ∧
    (t 1 = cornerColors c 0 ∨ t 1 = cornerColors c 1 ∨ t 1 = cornerColors c 2) ∧
    (t 2 = cornerColors c 0 ∨ t 2 = cornerColors c 1 ∨ t 2 = cornerColors c 2) ∧
    t 0 ≠ t 1 ∧ t 1 ≠ t 2 ∧ t 0 ≠ t 2)

/-- `Cube::getCornerPermutation` on a color triple: first matching corner, else `-1`. -/
def decodeCornerPerm (t : Fin 3 → Color) : ℤ :=
  match (List.finRange 8).find? (fun c => cornerMatch t c) with
  | some c => (c.val : ℤ)
  | none => -1

/-- `Cube::getCornerOrientation` on a color triple: 0 if the U/D color is first,
1 if second, else 2. -/
def decodeCornerOri (t : Fin 3 → Color) : ℤ :=
  if t 0 = .White ∨ t 0 = .Yellow then 0
  else if t 1 = .White ∨ t 1 = .Yellow then 1
  else 2

/-- The matching test of `Cube::getEdgePermutation`. -/
def edgeMatch (t : Fin 2 → Color) (e : Fin 12) : Bool :=
  decide ((t 0 = edgeColors e 0 ∧ t 1 = edgeColors e 1) ∨
    (t 0 = edgeColors e 1 ∧ t 1 = edgeColors e 0))

/-- `Cube::getEdgePermutation` on a color pair: first matching edge, else `-1`. -/
def decodeEdgePerm (t : Fin 2 → Color) : ℤ :=
  match (List.finRange 12).find? (fun e => edgeMatch t e) with
  | some e => (e.val : ℤ)
  | none => -1

/-- `Cube::getEdgeOrientation` on a color pair: 0 if the pair matches no edge,
else 0 iff the first facelet carries the edge's first solved color. -/
def decodeEdgeOri (t : Fin 2 → Color) : ℤ :=
  match (List.finRange 12).find? (fun e => edgeMatch t e) with
  | none => 0
  | some e => if t 0 = edgeColors e 0 then 0 else 1

def getCornerPermutation (s : CubeState) (pos : Fin 8) : ℤ :=
  decodeCornerPerm (tripleAt s pos)

def getCornerOrientation (s : CubeState) (pos : Fin 8) : ℤ :=
  decodeCornerOri (tripleAt s pos)

def getEdgePermutation (s : CubeState) (pos : Fin 12) : ℤ :=
  decodeEdgePerm (pairAt s pos)

def getEdgeOrientation (s : CubeState) (pos : Fin 12) : ℤ :=
  decodeEdgeOri (pairAt s pos)

/-! ## Solver coordinate codec (`solver.cpp`) -/

/-- `static_cast<uint8_t>(z)` for an `int` value `z`. -/
def u8 (z : ℤ) : ℕ := (z % 256).toNat

/-- The cubie representation `CubieCube` (fields are `uint8_t` arrays; we model
bytes as naturals, all stored values fit a byte). -/
@[ext] structure CubieCube where
  cp : Fin 8 → ℕ
  co : Fin 8 → ℕ
  ep : Fin 12 → ℕ
  eo : Fin 12 → ℕ

/-- `toCubie`: snapshot the piece decoding of a facelet cube. -/
def toCubie (s : CubeState) : CubieCube where
  cp := fun i => u8 (getCornerPermutation s i)
  co := fun i => u8 (getCornerOrientation s i)
  ep := fun i => u8 (getEdgePermutation s i)
  eo := fun i => u8 (getEdgeOrientation s i)

/-- `cornerOriCoord`: base-3 digits of `co[0..6]`, most significant first. -/
def cornerOriCoord (co : Fin 8 → ℕ) : ℕ :=
  ((((((co 0 % 3) * 3 + co 1 % 3) * 3 + co 2 % 3) * 3 + co 3 % 3) * 3 + co 4 % 3) * 3
      + co 5 % 3) * 3 + co 6 % 3

/-- `cornerOriFromCoord`: digits of `coord`, last orientation by sum-to-zero mod 3. -/
def cornerOriFromCoord (x : ℕ) : Fin 8 → ℕ := fun i =>
  if i.val ≤ 6 then x / 3 ^ (6 - i.val) % 3
  else (3 - (∑ j ∈ Finset.range 7, x / 3 ^ (6 - j) % 3) % 3) % 3

/-- `edgeOriCoord`: base-2 digits of `eo[0..10] & 1`, most significant first. -/
def edgeOriCoord (eo : Fin 12 → ℕ) : ℕ :=
  (((((((((((eo 0 &&& 1) * 2 + (eo 1 &&& 1)) * 2 + (eo 2 &&& 1)) * 2 + (eo 3 &&& 1)) * 2
      + (eo 4 &&& 1)) * 2 + (eo 5 &&& 1)) * 2 + (eo 6 &&& 1)) * 2 + (eo 7 &&& 1)) * 2
      + (eo 8 &&& 1)) * 2 + (eo 9 &&& 1)) * 2 + (eo 10 &&& 1))

/-- `edgeOriFromCoord`: bits of `coord`, last orientation by parity. -/
def edgeOriFromCoord (x : ℕ) : Fin 12 → ℕ := fun i =>
  if i.val ≤ 10 then x / 2 ^ (10 - i.val) % 2
  else (∑ j ∈ Finset.range 11, x / 2 ^ (10 - j) % 2) % 2

/-- The Pascal-recursion binomial table `kBinom` (`b[n][k]`). -/
def kBinom : ℕ → ℕ → ℕ
  | _, 0 => 1
  | 0, _ + 1 => 0
  | n + 1, k + 1 =>
    if k + 1 > n + 1 then 0
    else if k + 1 = n + 1 then 1
    else kBinom n k + kBinom n (k + 1)

/-- The scan of `sliceCoord`: positions from 11 down to 0, `k` slice edges
still to see (an `int`, it may go negative), accumulating the rank. -/
def sliceScan (ep : Fin 12 → ℕ) : List (Fin 12) → ℤ → ℕ → ℕ
  | [], _, coord => coord
  | i :: rest, k, coord =>
    if 8 ≤ ep i then sliceScan ep rest (k - 1) coord
    else if 0 < k then sliceScan ep rest k (coord + kBinom i.val k.toNat)
    else sliceScan ep rest k coord

/-- `sliceCoord`: combination rank of the positions holding slice edges. -/
def sliceCoord (ep : Fin 12 → ℕ) : ℕ :=
  sliceScan ep (List.finRange 12).reverse 4 0

/-- The unranking scan of `sliceFromCoord`: marks for positions 11 down to 0. -/
def sliceMarkScan : List (Fin 12) → ℕ → ℤ → List Bool
  | [], _, _ => []
  | i :: rest, coord, k =>
    if k = 0 then false :: sliceMarkScan rest coord k
    else
      let c := kBinom i.val k.toNat
      if c ≤ coord then false :: sliceMarkScan rest (coord - c) k
      else true :: sliceMarkScan rest coord (k - 1)

/-- The fill loop of `sliceFromCoord`: slice positions get `8,9,10,11` in
order, the others `0..7` in order. -/
def fillScan : List Bool → ℕ → ℕ → List ℕ
  | [], _, _ => []
  | true :: rest, ns, sl => sl :: fillScan rest ns (sl + 1)
  | false :: rest, ns, sl => ns :: fillScan rest (ns + 1) sl

/-- `sliceFromCoord`: a representative edge permutation with the slice edges on
the positions of rank `coord`. -/
def sliceFromCoord (x : ℕ) : Fin 12 → ℕ := fun i =>
  (fillScan (sliceMarkScan (List.finRange 12).reverse x 4).reverse 0 8).getD i.val 0

/-- `kFact8[n] = n!` table of `solver.cpp`. -/
def kFact8 : ℕ → ℕ
  | 0 => 1 | 1 => 1 | 2 => 2 | 3 => 6 | 4 => 24 | 5 => 120 | 6 => 720 | 7 => 5040
  | 8 => 40320 | _ => 0

/-- `kFact4[n] = n!` table of `solver.cpp`. -/
def kFact4 : ℕ → ℕ
  | 0 => 1 | 1 => 1 | 2 => 2 | 3 => 6 | 4 => 24 | _ => 0

/-- `perm8Coord`: Lehmer code in the factorial number system. -/
def perm8Coord (p : Fin 8 → ℕ) : ℕ :=
  ∑ i : Fin 8, ((List.finRange 8).countP fun j => decide (i < j) && decide (p j < p i))
    * kFact8 (7 - i.val)

/-- The 8 iterations of `perm8FromCoord`: greedy factorial expansion over the
shrinking list `elems`. -/
def perm8Steps : ℕ → ℕ → List ℕ → List ℕ
  | 0, _, _ => []
  | n + 1, x, es =>
    let f := kFact8 (es.length - 1)
    let idx := x / f
    es.getD idx 0 :: perm8Steps n (x % f) (es.eraseIdx idx)

def perm8FromCoord (x : ℕ) : Fin 8 → ℕ := fun i =>
  (perm8Steps 8 x [0, 1, 2, 3, 4, 5, 6, 7]).getD i.val 0

/-- `perm4Coord`: Lehmer code over 4 elements. -/
def perm4Coord (p : Fin 4 → ℕ) : ℕ :=
  ∑ i : Fin 4, ((List.finRange 4).countP fun j => decide (i < j) && decide (p j < p i))
    * kFact4 (3 - i.val)

def perm4Steps : ℕ → ℕ → List ℕ → List ℕ
  | 0, _, _ => []
  | n + 1, x, es =>
    let f := kFact4 (es.length - 1)
    let idx := x / f
    es.getD idx 0 :: perm4Steps n (x % f) (es.eraseIdx idx)

def perm4FromCoord (x : ℕ) : Fin 4 → ℕ := fun i =>
  (perm4Steps 4 x [0, 1, 2, 3]).getD i.val 0

/-! ## Move records (`Tables::init`): apply each move to the solved cube and
read back the cubie effect. -/

def cPosRaw (m : Move) (i : Fin 8) : ℕ := (toCubie (applyMove m solvedCube)).cp i
def cOriR (m : Move) (i : Fin 8) : ℕ := (toCubie (applyMove m solvedCube)).co i
def ePosRaw (m : Move) (i : Fin 12) : ℕ := (toCubie (applyMove m solvedCube)).ep i
def eOriR (m : Move) (i : Fin 12) : ℕ := (toCubie (applyMove m solvedCube)).eo i

theorem cPosRaw_lt (m : Move) (i : Fin 8) : cPosRaw m i < 8 := by
  revert m i; decide

theorem ePosRaw_lt (m : Move) (i : Fin 12) : ePosRaw m i < 12 := by
  revert m i; decide

/-- The corner slot a move fills slot `i` from (`cPos[move][i]` as an index). -/
def cPosT (m : Move) (i : Fin 8) : Fin 8 := ⟨cPosRaw m i, cPosRaw_lt m i⟩

/-- The edge slot a move fills slot `i` from (`ePos[move][i]` as an index). -/
def ePosT (m : Move) (i : Fin 12) : Fin 12 := ⟨ePosRaw m i, ePosRaw_lt m i⟩

/-- `Tables::applyMove`: piece-level composition by the move records.
`cp`/`ep` entries are copied bytes; `co` is reduced mod 3 and `eo` XORed, as in
the source (all results fit in a byte for byte-valued inputs). -/
def tablesApply (m : Move) (cc : CubieCube) : CubieCube where
  cp := fun i => cc.cp (cPosT m i)
  co := fun i => (cc.co (cPosT m i) + cOriR m i) % 3
  ep := fun i => cc.ep (ePosT m i)
  eo := fun i => cc.eo (ePosT m i) ^^^ eOriR m i

/-- The corner source-slot table of the 18 move records (verified against the
facelet engine in `cPosT_eq`). -/
def cPosTab : Move → Fin 8 → Fin 8
  | .U => ![3, 0, 1, 2, 4, 5, 6, 7]
  | .Up => ![1, 2, 3, 0, 4, 5, 6, 7]
  | .U2 => ![2, 3, 0, 1, 4, 5, 6, 7]
  | .D => ![0, 1, 2, 3, 5, 6, 7, 4]
  | .Dp => ![0, 1, 2, 3, 7, 4, 5, 6]
  | .D2 => ![0, 1, 2, 3, 6, 7, 4, 5]
  | .L => ![0, 2, 6, 3, 4, 1, 5, 7]
  | .Lp => ![0, 5, 1, 3, 4, 6, 2, 7]
  | .L2 => ![0, 6, 5, 3, 4, 2, 1, 7]
  | .R => ![4, 1, 2, 0, 7, 5, 6, 3]
  | .Rp => ![3, 1, 2, 7, 0, 5, 6, 4]
  | .R2 => ![7, 1, 2, 4, 3, 5, 6, 0]
  | .F => ![1, 5, 2, 3, 0, 4, 6, 7]
  | .Fp => ![4, 0, 2, 3, 5, 1, 6, 7]
  | .F2 => ![5, 4, 2, 3, 1, 0, 6, 7]
  | .B => ![0, 1, 3, 7, 4, 5, 2, 6]
  | .Bp => ![0, 1, 6, 2, 4, 5, 7, 3]
  | .B2 => ![0, 1, 7, 6, 4, 5, 3, 2]

/-- The corner twist-delta table of the move records. -/
def cOriTab : Move → Fin 8 → ℕ
  | .L => ![0, 1, 2, 0, 0, 2, 1, 0]
  | .Lp => ![0, 1, 2, 0, 0, 2, 1, 0]
  | .R => ![2, 0, 0, 1, 1, 0, 0, 2]
  | .Rp => ![2, 0, 0, 1, 1, 0, 0, 2]
  | .F => ![1, 2, 0, 0, 2, 1, 0, 0]
  | .Fp => ![1, 2, 0, 0, 2, 1, 0, 0]
  | .B => ![0, 0, 1, 2, 0, 0, 2, 1]
  | .Bp => ![0, 0, 1, 2, 0, 0, 2, 1]
  | _ => ![0, 0, 0, 0, 0, 0, 0, 0]

/-- The edge source-slot table of the move records. -/
def ePosTab : Move → Fin 12 → Fin 12
  | .U => ![3, 0, 1, 2, 4, 5, 6, 7, 8, 9, 10, 11]
  | .Up => ![1, 2, 3, 0, 4, 5, 6, 7, 8, 9, 10, 11]
  | .U2 => ![2, 3, 0, 1, 4, 5, 6, 7, 8, 9, 10, 11]
  | .D => ![0, 1, 2, 3, 5, 6, 7, 4, 8, 9, 10, 11]
  | .Dp => ![0, 1, 2, 3, 7, 4, 5, 6, 8, 9, 10, 11]
  | .D2 => ![0, 1, 2, 3, 6, 7, 4, 5, 8, 9, 10, 11]
  | .L => ![0, 1, 10, 3, 4, 5, 9, 7, 8, 2, 6, 11]
  | .Lp => ![0, 1, 9, 3, 4, 5, 10, 7, 8, 6, 2, 11]
  | .L2 => ![0, 1, 6, 3, 4, 5, 2, 7, 8, 10, 9, 11]
  | .R => ![8, 1, 2, 3, 11, 5, 6, 7, 4, 9, 10, 0]
  | .Rp => ![11, 1, 2, 3, 8, 5, 6, 7, 0, 9, 10, 4]
  | .R2 => ![4, 1, 2, 3, 0, 5, 6, 7, 11, 9, 10, 8]
  | .F => ![0, 9, 2, 3, 4, 8, 6, 7, 1, 5, 10, 11]
  | .Fp => ![0, 8, 2, 3, 4, 9, 6, 7, 5, 1, 10, 11]
  | .F2 => ![0, 5, 2, 3, 4, 1, 6, 7, 9, 8, 10, 11]
  | .B => ![0, 1, 2, 11, 4, 5, 6, 10, 8, 9, 3, 7]
  | .Bp => ![0, 1, 2, 10, 4, 5, 6, 11, 8, 9, 7, 3]
  | .B2 => ![0, 1, 2, 7, 4, 5, 6, 3, 8, 9, 11, 10]

/-- The edge flip-delta table of the move records. -/
def eOriTab : Move → Fin 12 → ℕ
  | .F => ![0, 1, 0, 0, 0, 1, 0, 0, 1, 1, 0, 0]
  | .Fp => ![0, 1, 0, 0, 0, 1, 0, 0, 1, 1, 0, 0]
  | .B => ![0, 0, 0, 1, 0, 0, 0, 1, 0, 0, 1, 1]
  | .Bp => ![0, 0, 0, 1, 0, 0, 0, 1, 0, 0, 1, 1]
  | _ => ![0, 0, 0, 0, 0, 0, 0, 0, 0, 0, 0, 0]

theorem cPosT_eq : ∀ (m : Move) (i : Fin 8), cPosT m i = cPosTab m i := by decide

theorem cOriR_eq : ∀ (m : Move) (i : Fin 8), cOriR m i = cOriTab m i := by decide

theorem ePosT_eq : ∀ (m : Move) (j : Fin 12), ePosT m j = ePosTab m j := by decide

theorem eOriR_eq : ∀ (m : Move) (j : Fin 12), eOriR m j = eOriTab m j := by decide


/-! ## Coordinate round-trip machinery -/

/-- Iterative bounded checker: `natAll f n` is `f (n-1) && ... && f 0`. -/
def natAll (f : ℕ → Bool) : ℕ → Bool
  | 0 => true
  | n + 1 => f n && natAll f n

theorem natAll_sound {f : ℕ → Bool} : ∀ {n : ℕ}, natAll f n = true → ∀ i, i < n → f i = true := by
  intro n
  induction n with
  | zero => intro _ i hi; omega
  | succ n ih =>
    intro h i hi
    rw [natAll, Bool.and_eq_true] at h
    rcases Nat.lt_succ_iff_lt_or_eq.mp hi with h2 | h2
    · exact ih h.2 i h2
    · subst h2; exact h.1

/-- Lehmer code of a list: inversion count of the head against the tail, times
factorial of the tail length, plus the code of the tail. -/
def listLehmer : List ℕ → ℕ
  | [] => 0
  | a :: rest => (rest.countP fun x => decide (x < a)) * Nat.factorial rest.length + listLehmer rest

theorem kFact8_eq {n : ℕ} (h : n ≤ 8) : kFact8 n = n.factorial := by
  interval_cases n <;> rfl

theorem perm8Steps_length (fuel : ℕ) : ∀ (x : ℕ) (es : List ℕ),
    (perm8Steps fuel x es).length = fuel := by
  induction fuel with
  | zero => intro x es; rfl
  | succ n ih => intro x es; simp [perm8Steps, ih]

theorem countP_eraseIdx_sorted : ∀ (l : List ℕ) (i : ℕ), i < l.length →
    List.Sorted (· < ·) l →
    ((l.eraseIdx i).countP fun x => decide (x < l.getD i 0)) = i := by
  intro l
  induction l with
  | nil => intro i hi; simp at hi
  | cons a t ih =>
    intro i hi hs
    match i with
    | 0 =>
      simp only [List.eraseIdx, List.getD_cons_zero]
      refine List.countP_eq_zero.mpr ?_
      intro x hx
      have := (List.sorted_cons.mp hs).1 x hx
      simp only [decide_eq_true_eq]
      omega
    | j + 1 =>
      simp only [List.eraseIdx, List.getD_cons_succ, List.countP_cons]
      have hj : j < t.length := by simpa using hi
      have hst := List.sorted_cons.mp hs
      have ha : a < t.getD j 0 := by
        have hmem : t.getD j 0 ∈ t := by
          rw [List.getD_eq_getElem t 0 hj]
          exact List.getElem_mem hj
        exact hst.1 _ hmem
      rw [ih j hj hst.2, if_pos (decide_eq_true ha)]

theorem cons_eraseIdx_perm (l : List ℕ) (i : ℕ) (h : i < l.length) :
    (l.getD i 0 :: l.eraseIdx i).Perm l := by
  rw [List.getD_eq_getElem l 0 h, List.eraseIdx_eq_take_drop_succ]
  calc (l[i] :: (l.take i ++ l.drop (i + 1))).Perm (l.take i ++ l[i] :: l.drop (i + 1)) :=
        List.perm_middle.symm
    _ = l := by rw [← List.drop_eq_getElem_cons h, List.take_append_drop]

theorem perm8Steps_spec : ∀ (n : ℕ) (es : List ℕ) (x : ℕ), es.length = n → n ≤ 8 →
    List.Sorted (· < ·) es → x < kFact8 n →
    listLehmer (perm8Steps n x es) = x ∧ (perm8Steps n x es).Perm es := by
  intro n
  induction n with
  | zero =>
    intro es x hlen _ _ hx
    have hx0 : x = 0 := by simpa [kFact8] using hx
    have hes : es = [] := List.length_eq_zero.mp hlen
    subst hx0; subst hes
    exact ⟨rfl, List.Perm.refl _⟩
  | succ n ih =>
    intro es x hlen hn hs hx
    have hfact : kFact8 n = n.factorial := kFact8_eq (by omega)
    have hfpos : 0 < kFact8 n := by rw [hfact]; exact n.factorial_pos
    have hsucc : kFact8 (n + 1) = (n + 1) * kFact8 n := by
      rw [kFact8_eq hn, kFact8_eq (show n ≤ 8 by omega), Nat.factorial_succ]
    have hidx : x / kFact8 n < n + 1 := by
      rw [Nat.div_lt_iff_lt_mul hfpos]
      omega
    have hidx2 : x / kFact8 n < es.length := by omega
    have hstep : perm8Steps (n + 1) x es =
        es.getD (x / kFact8 n) 0 :: perm8Steps n (x % kFact8 n) (es.eraseIdx (x / kFact8 n)) := by
      simp only [perm8Steps, hlen, Nat.add_sub_cancel]
    have herlen : (es.eraseIdx (x / kFact8 n)).length = n := by
      have := List.length_eraseIdx_add_one hidx2
      omega
    have hersorted : List.Sorted (· < ·) (es.eraseIdx (x / kFact8 n)) :=
      hs.sublist (List.eraseIdx_sublist es (x / kFact8 n))
    have hmod : x % kFact8 n < kFact8 n := Nat.mod_lt _ hfpos
    obtain ⟨ihL, ihP⟩ := ih (es.eraseIdx (x / kFact8 n)) (x % kFact8 n) herlen (by omega) hersorted hmod
    rw [hstep]
    refine ⟨?_, (ihP.cons _).trans (cons_eraseIdx_perm es _ hidx2)⟩
    rw [listLehmer]
    rw [ihP.countP_eq, countP_eraseIdx_sorted es _ hidx2 hs, perm8Steps_length, ihL, ← hfact]
    have h4 := Nat.div_add_mod x (kFact8 n)
    have h5 : x / kFact8 n * kFact8 n = kFact8 n * (x / kFact8 n) := Nat.mul_comm _ _
    omega
theorem perm8Coord_listLehmer (a b c d e f g h : ℕ) :
    perm8Coord (fun i => ([a, b, c, d, e, f, g, h] : List ℕ).getD i.val 0) =
      listLehmer [a, b, c, d, e, f, g, h] := by
  have hfr : List.finRange 8 = [0, 1, 2, 3, 4, 5, 6, 7] := by decide
  have hv3 : ((3 : Fin 8) : ℕ) = 3 := rfl
  have hv4 : ((4 : Fin 8) : ℕ) = 4 := rfl
  have hv5 : ((5 : Fin 8) : ℕ) = 5 := rfl
  have hv6 : ((6 : Fin 8) : ℕ) = 6 := rfl
  have hv7 : ((7 : Fin 8) : ℕ) = 7 := rfl
  simp [perm8Coord, listLehmer, Fin.sum_univ_eight, List.countP_cons, kFact8,
    Nat.factorial, hfr, hv3, hv4, hv5, hv6, hv7]
  ring

theorem perm8_roundtrip : ∀ x : Fin 40320, perm8Coord (perm8FromCoord x.val) = x.val := by
  intro x
  have hs : List.Sorted (· < ·) ([0, 1, 2, 3, 4, 5, 6, 7] : List ℕ) := by decide
  have h8 := perm8Steps_spec 8 [0, 1, 2, 3, 4, 5, 6, 7] x.val rfl (by omega) hs x.isLt
  obtain ⟨a, b, c, d, e, f, g, h, hL⟩ :
      ∃ a b c d e f g h, perm8Steps 8 x.val [0, 1, 2, 3, 4, 5, 6, 7] = [a, b, c, d, e, f, g, h] := by
    have hlen := perm8Steps_length 8 x.val [0, 1, 2, 3, 4, 5, 6, 7]
    match hM : perm8Steps 8 x.val [0, 1, 2, 3, 4, 5, 6, 7], hlen with
    | [a, b, c, d, e, f, g, h], _ => exact ⟨a, b, c, d, e, f, g, h, rfl⟩
  unfold perm8FromCoord
  rw [hL] at h8 ⊢
  rw [perm8Coord_listLehmer, h8.1]

theorem cornerOri_roundtrip : ∀ x : Fin 2187, cornerOriCoord (cornerOriFromCoord x.val) = x.val := by
  intro x
  have h := natAll_sound (f := fun n => decide (cornerOriCoord (cornerOriFromCoord n) = n))
    (n := 2187) (by decide) x.val x.isLt
  exact of_decide_eq_true h

theorem edgeOri_roundtrip : ∀ x : Fin 2048, edgeOriCoord (edgeOriFromCoord x.val) = x.val := by
  intro x
  have h := natAll_sound (f := fun n => decide (edgeOriCoord (edgeOriFromCoord n) = n))
    (n := 2048) (by decide) x.val x.isLt
  exact of_decide_eq_true h

theorem perm4_roundtrip : ∀ x : Fin 24, perm4Coord (perm4FromCoord x.val) = x.val := by
  decide

/-- C4 (code bug at the SLICE coordinate): encoding the decoder's output is the
identity on the full defined range for CO (0..2186), EO (0..2047), CP/EP
(0..40319) and SP (0..23), but NOT for SLICE: at `x = 1` the decoder returns
the pattern of coordinate 0 (slice edges at positions 8..11), so
`sliceCoord (sliceFromCoord 1) = 0 ≠ 1`, contradicting the claimed round-trip
on 0..494 and the source comment "in the same ranking convention as
sliceCoord()". -/
theorem coordinate_roundtrips :
    (∀ x : Fin 2187, cornerOriCoord (cornerOriFromCoord x.val) = x.val) ∧
    (∀ x : Fin 2048, edgeOriCoord (edgeOriFromCoord x.val) = x.val) ∧
    (∀ x : Fin 40320, perm8Coord (perm8FromCoord x.val) = x.val) ∧
    (∀ x : Fin 24, perm4Coord (perm4FromCoord x.val) = x.val) ∧
    sliceCoord (sliceFromCoord 1) = 0 ∧ sliceFromCoord 1 = sliceFromCoord 0 :=
  ⟨cornerOri_roundtrip, edgeOri_roundtrip, perm8_roundtrip, perm4_roundtrip,
    by decide, by decide⟩


/-! ## C5: move inverse -/

theorem movePerm_inv_cancel (m : Move) (i : Fin 54) :
    movePerm m (movePerm (inverseMove m) i) = i := by
  revert m i; decide

/-- C5: applying a move and then its inverse restores every facelet, and
`inverseMove` exchanges the CW and CCW quarter turns of each face (indices
`3f` and `3f+1`) and fixes half turns (index `3f+2`). -/
theorem move_inverse_cancels :
    (∀ (m : Move) (s : CubeState), applyMove (inverseMove m) (applyMove m s) = s) ∧
    (∀ m : Move, (m.idx % 3 = 0 → (inverseMove m).idx = m.idx + 1) ∧
      (m.idx % 3 = 1 → (inverseMove m).idx = m.idx - 1) ∧
      (m.idx % 3 = 2 → inverseMove m = m)) := by
  constructor
  · intro m s
    rw [applyMove_eq, applyMove_eq]
    funext i
    exact congrArg s (movePerm_inv_cancel m i)
  · decide

/-! ## C8: the move-pruning predicate -/

/-- `Solver::moveAllowed` (C++ `int` division truncates; on the nonnegative
arguments reaching the divisions this agrees with `Int` division). -/
def moveAllowed (move lastMove : ℤ) : Bool :=
  if lastMove < 0 then true
  else
    let face := move / 3
    let lastFace := lastMove / 3
    if face = lastFace then false
    else if face / 2 = lastFace / 2 ∧ face < lastFace then false
    else true

/-- The anonymous-namespace `moveAllowedPrune`, textually identical. -/
def moveAllowedPrune (move lastMove : ℤ) : Bool :=
  if lastMove < 0 then true
  else
    let face := move / 3
    let lastFace := lastMove / 3
    if face = lastFace then false
    else if face / 2 = lastFace / 2 ∧ face < lastFace then false
    else true

/-- C8: `moveAllowed` (and the identical `moveAllowedPrune`) is true whenever
`lastMove < 0`; for an in-range previous move it is false exactly when the two
moves turn the same face (`move/3 = lastMove/3`), or the two faces are an
opposite pair (same `face/2`) with the new face index smaller. -/
theorem moveAllowed_spec (move lastMove : ℤ) (h0 : 0 ≤ move) (h1 : move < 18)
    (h2 : lastMove < 18) :
    (moveAllowedPrune move lastMove = moveAllowed move lastMove) ∧
    (lastMove < 0 → moveAllowed move lastMove = true) ∧
    (0 ≤ lastMove →
      (moveAllowed move lastMove = false ↔
        (move / 3 = lastMove / 3 ∨
          ((move / 3) / 2 = (lastMove / 3) / 2 ∧ move / 3 < lastMove / 3)))) := by
  refine ⟨rfl, fun hneg => by simp [moveAllowed, hneg], fun hpos => ?_⟩
  interval_cases move <;> interval_cases lastMove <;> decide

theorem moveAllowed_spec_witness :
    (0 : ℤ) ≤ 0 ∧ (0 : ℤ) < 18 ∧ (1 : ℤ) < 18 ∧
    (moveAllowedPrune 0 1 = moveAllowed 0 1) ∧
    (moveAllowed 0 1 = false ↔
      ((0 : ℤ) / 3 = 1 / 3 ∨ (((0 : ℤ) / 3) / 2 = ((1 : ℤ) / 3) / 2 ∧ (0 : ℤ) / 3 < 1 / 3))) :=
  ⟨by decide, by decide, by decide,
    (moveAllowed_spec 0 1 (by decide) (by decide) (by decide)).1,
    (moveAllowed_spec 0 1 (by decide) (by decide) (by decide)).2.2 (by decide)⟩

/-! ## C10: decoder orientation ranges -/

/-- C10: corner orientation decoding is always in `{0,1,2}` and edge
orientation in `{0,1}` on every facelet state; the edge decoder returns 0 when
the pair matches no edge, and the corner decoder returns 2 whenever neither of
the first two corner facelets is White or Yellow, so only the permutation
decoders signal inconsistency with `-1`. -/
theorem orientation_decode_ranges (s : CubeState) (i : Fin 8) (j : Fin 12) :
    (0 ≤ getCornerOrientation s i ∧ getCornerOrientation s i ≤ 2) ∧
    (getEdgeOrientation s j = 0 ∨ getEdgeOrientation s j = 1) ∧
    (getEdgePermutation s j < 0 → getEdgeOrientation s j = 0) ∧
    ((s (cornerFacelets i 0) ≠ Color.White ∧ s (cornerFacelets i 0) ≠ Color.Yellow) →
      (s (cornerFacelets i 1) ≠ Color.White ∧ s (cornerFacelets i 1) ≠ Color.Yellow) →
      getCornerOrientation s i = 2) := by
  refine ⟨?_, ?_, ?_, ?_⟩
  · unfold getCornerOrientation decodeCornerOri
    split
    · omega
    · split <;> omega
  · unfold getEdgeOrientation decodeEdgeOri
    rcases hf : (List.finRange 12).find? (fun e => edgeMatch (pairAt s j) e) with _ | e <;>
      simp only [hf]
    · trivial
    · by_cases h : pairAt s j 0 = edgeColors e 0
      · exact Or.inl (by rw [if_pos h])
      · exact Or.inr (by rw [if_neg h])
  · unfold getEdgePermutation decodeEdgePerm getEdgeOrientation decodeEdgeOri
    rcases hf : (List.finRange 12).find? (fun e => edgeMatch (pairAt s j) e) with _ | e <;>
      simp only [hf]
    · intro _; trivial
    · intro hlt; exfalso; omega
  · intro hc0 hc1
    unfold getCornerOrientation decodeCornerOri
    rw [if_neg, if_neg]
    · unfold tripleAt; tauto
    · unfold tripleAt; tauto

theorem orientation_decode_ranges_witness :
    getCornerOrientation (fun _ => Color.Red) 0 = 2 ∧
    getEdgeOrientation (fun _ => Color.Red) 0 = 0 :=
  ⟨(orientation_decode_ranges (fun _ => Color.Red) 0 0).2.2.2 (by decide) (by decide),
    (orientation_decode_ranges (fun _ => Color.Red) 0 0).2.2.1 (by decide)⟩


/-! ## C2: the piece-level move records refine the facelet engine -/

/-- Index rotation matching the corner facelet order under a twist of `r`. -/
def rotIdx (r : ℕ) (k : Fin 3) : Fin 3 := ⟨(k.val + 3 - r % 3) % 3, by omega⟩

/-- Index swap matching the edge facelet order under a flip of `f`. -/
def flipIdx (f : ℕ) (k : Fin 2) : Fin 2 := ⟨(k.val + f % 2) % 2, by omega⟩

theorem cOriTab_lt : ∀ (m : Move) (i : Fin 8), cOriTab m i < 3 := by decide

theorem cOriR_lt (m : Move) (i : Fin 8) : cOriR m i < 3 := by
  rw [cOriR_eq]
  exact cOriTab_lt m i

theorem eOriTab_lt : ∀ (m : Move) (j : Fin 12), eOriTab m j < 2 := by decide

theorem eOriR_lt (m : Move) (j : Fin 12) : eOriR m j < 2 := by
  rw [eOriR_eq]
  exact eOriTab_lt m j

/-- Every move carries the facelets of corner slot `cPosT m i` to slot `i`,
rotated by exactly the recorded orientation delta. -/
theorem cornerMoveFactTab : ∀ (m : Move) (i : Fin 8) (k : Fin 3),
    movePerm m (cornerFacelets i k) = cornerFacelets (cPosTab m i) (rotIdx (cOriTab m i) k) := by
  decide

theorem cornerMoveFact (m : Move) (i : Fin 8) (k : Fin 3) :
    movePerm m (cornerFacelets i k) = cornerFacelets (cPosT m i) (rotIdx (cOriR m i) k) := by
  rw [cPosT_eq, cOriR_eq]
  exact cornerMoveFactTab m i k

/-- Every move carries the facelets of edge slot `ePosT m j` to slot `j`,
swapped exactly when the recorded flip is 1. -/
theorem edgeMoveFactTab : ∀ (m : Move) (j : Fin 12) (k : Fin 2),
    movePerm m (edgeFacelets j k) = edgeFacelets (ePosTab m j) (flipIdx (eOriTab m j) k) := by
  decide

theorem edgeMoveFact (m : Move) (j : Fin 12) (k : Fin 2) :
    movePerm m (edgeFacelets j k) = edgeFacelets (ePosT m j) (flipIdx (eOriR m j) k) := by
  rw [ePosT_eq, eOriR_eq]
  exact edgeMoveFactTab m j k

theorem decodeCornerPerm_rot (t : Fin 3 → Color) (r : Fin 3) :
    decodeCornerPerm (fun k => t (rotIdx r.val k)) = decodeCornerPerm t := by
  revert t r; decide

theorem decodeCornerOri_rot (t : Fin 3 → Color) (c : Fin 8) (r : Fin 3)
    (h : cornerMatch t c = true) :
    decodeCornerOri (fun k => t (rotIdx r.val k)) = (decodeCornerOri t + r.val) % 3 := by
  revert t c r; decide

theorem decodeEdgePerm_flip (t : Fin 2 → Color) (f : Fin 2) :
    decodeEdgePerm (fun k => t (flipIdx f.val k)) = decodeEdgePerm t := by
  revert t f; decide

theorem decodeEdgeOri_flip (t : Fin 2 → Color) (e : Fin 12) (f : Fin 2)
    (h : edgeMatch t e = true) :
    decodeEdgeOri (fun k => t (flipIdx f.val k)) = (decodeEdgeOri t + f.val) % 2 := by
  revert t e f; decide

theorem decodeCornerOri_range (t : Fin 3 → Color) :
    0 ≤ decodeCornerOri t ∧ decodeCornerOri t ≤ 2 := by
  unfold decodeCornerOri
  split
  · omega
  · split <;> omega

theorem decodeEdgeOri_range (t : Fin 2 → Color) :
    decodeEdgeOri t = 0 ∨ decodeEdgeOri t = 1 := by
  unfold decodeEdgeOri
  rcases hf : (List.finRange 12).find? (fun e => edgeMatch t e) with _ | e <;> simp only [hf]
  · trivial
  · by_cases h : t 0 = edgeColors e 0
    · exact Or.inl (by rw [if_pos h])
    · exact Or.inr (by rw [if_neg h])

theorem cornerMatch_of_nonneg {t : Fin 3 → Color} (h : 0 ≤ decodeCornerPerm t) :
    ∃ c, cornerMatch t c = true := by
  unfold decodeCornerPerm at h
  rcases hf : (List.finRange 8).find? (fun c => cornerMatch t c) with _ | c
  · rw [hf] at h; exact absurd h (by decide)
  · exact ⟨c, List.find?_some hf⟩

theorem edgeMatch_of_nonneg {t : Fin 2 → Color} (h : 0 ≤ decodeEdgePerm t) :
    ∃ e, edgeMatch t e = true := by
  unfold decodeEdgePerm at h
  rcases hf : (List.finRange 12).find? (fun e => edgeMatch t e) with _ | e
  · rw [hf] at h; exact absurd h (by decide)
  · exact ⟨e, List.find?_some hf⟩

theorem tripleAt_applyMove (s : CubeState) (m : Move) (i : Fin 8) :
    tripleAt (applyMove m s) i = fun k => tripleAt s (cPosT m i) (rotIdx (cOriR m i) k) := by
  funext k
  show (applyMove m s) (cornerFacelets i k) = _
  rw [applyMove_eq]
  exact congrArg s (cornerMoveFact m i k)

theorem pairAt_applyMove (s : CubeState) (m : Move) (j : Fin 12) :
    pairAt (applyMove m s) j = fun k => pairAt s (ePosT m j) (flipIdx (eOriR m j) k) := by
  funext k
  show (applyMove m s) (edgeFacelets j k) = _
  rw [applyMove_eq]
  exact congrArg s (edgeMoveFact m j k)

/-- C2 (amended): on every state where each corner and edge position decodes to
a real cubie (`getCornerPermutation ≥ 0` and `getEdgePermutation ≥ 0`, as on
every solvable state), converting to the cubie representation commutes with
move application: the facelet engine refines the record-based composition
`out.cp[i] = in.cp[move.cp[i]]`, `out.co[i] = (in.co[move.cp[i]] + move.co[i]) mod 3`,
`out.ep[i] = in.ep[move.ep[i]]`, `out.eo[i] = in.eo[move.ep[i]] xor move.eo[i]`. -/
theorem facelet_cubie_refinement (s : CubeState)
    (hc : ∀ i : Fin 8, 0 ≤ getCornerPermutation s i)
    (he : ∀ j : Fin 12, 0 ≤ getEdgePermutation s j) (m : Move) :
    toCubie (applyMove m s) = tablesApply m (toCubie s) := by
  refine CubieCube.ext ?_ ?_ ?_ ?_ <;> funext i
  · show u8 (decodeCornerPerm (tripleAt (applyMove m s) i)) = u8 (decodeCornerPerm (tripleAt s (cPosT m i)))
    rw [tripleAt_applyMove]
    rw [decodeCornerPerm_rot (tripleAt s (cPosT m i)) ⟨cOriR m i, cOriR_lt m i⟩]
  · show u8 (decodeCornerOri (tripleAt (applyMove m s) i)) =
      (u8 (decodeCornerOri (tripleAt s (cPosT m i))) + cOriR m i) % 3
    rw [tripleAt_applyMove]
    obtain ⟨c, hcm⟩ := cornerMatch_of_nonneg (hc (cPosT m i))
    rw [decodeCornerOri_rot (tripleAt s (cPosT m i)) c ⟨cOriR m i, cOriR_lt m i⟩ hcm]
    have hval : ((⟨cOriR m i, cOriR_lt m i⟩ : Fin 3) : ℕ) = cOriR m i := rfl
    rw [hval]
    have hr := decodeCornerOri_range (tripleAt s (cPosT m i))
    have h3 : cOriR m i < 3 := cOriR_lt m i
    rcases (show cOriR m i = 0 ∨ cOriR m i = 1 ∨ cOriR m i = 2 by omega) with h | h | h <;>
      rw [h] <;>
      rcases (show decodeCornerOri (tripleAt s (cPosT m i)) = 0 ∨
          decodeCornerOri (tripleAt s (cPosT m i)) = 1 ∨
          decodeCornerOri (tripleAt s (cPosT m i)) = 2 by omega) with h4 | h4 | h4 <;>
      rw [h4] <;> rfl
  · show u8 (decodeEdgePerm (pairAt (applyMove m s) i)) = u8 (decodeEdgePerm (pairAt s (ePosT m i)))
    rw [pairAt_applyMove]
    rw [decodeEdgePerm_flip (pairAt s (ePosT m i)) ⟨eOriR m i, eOriR_lt m i⟩]
  · show u8 (decodeEdgeOri (pairAt (applyMove m s) i)) =
      u8 (decodeEdgeOri (pairAt s (ePosT m i))) ^^^ eOriR m i
    rw [pairAt_applyMove]
    obtain ⟨e, hem⟩ := edgeMatch_of_nonneg (he (ePosT m i))
    rw [decodeEdgeOri_flip (pairAt s (ePosT m i)) e ⟨eOriR m i, eOriR_lt m i⟩ hem]
    have hval : ((⟨eOriR m i, eOriR_lt m i⟩ : Fin 2) : ℕ) = eOriR m i := rfl
    rw [hval]
    have hr := decodeEdgeOri_range (pairAt s (ePosT m i))
    have h2 : eOriR m i < 2 := eOriR_lt m i
    rcases (show eOriR m i = 0 ∨ eOriR m i = 1 by omega) with h | h <;> rw [h] <;>
      rcases hr with hr | hr <;> rw [hr] <;> rfl

theorem facelet_cubie_refinement_witness :
    toCubie (applyMove Move.F solvedCube) = tablesApply Move.F (toCubie solvedCube) :=
  facelet_cubie_refinement solvedCube (by decide) (by decide) Move.F

/-- The claim as stated, quantified over every cube state, is false: on the
all-White facelet array (reachable through `setState`), applying `F` with the
facelet engine leaves every decoded corner orientation 0, while the
record-based composition adds the twist deltas of `F`. -/
theorem facelet_cubie_refinement_counterexample :
    ¬ (toCubie (applyMove Move.F (fun _ => Color.White)) =
        tablesApply Move.F (toCubie (fun _ => Color.White))) := fun h =>
  absurd (congrArg (fun cc => cc.co 0) h) (by decide)


/-! ## C7: the phase-2 move set and the G1 subgroup -/

/-- `kPhase2Moves`: absolute move indices `{0,1,2, 3,4,5, 8,11, 14,17}`. -/
def kPhase2Moves : Fin 10 → Move
  | 0 => .U | 1 => .Up | 2 => .U2
  | 3 => .D | 4 => .Dp | 5 => .D2
  | 6 => .L2 | 7 => .R2
  | 8 => .F2 | 9 => .B2

theorem sliceScan_le (ep : Fin 12 → ℕ) :
    ∀ (l : List (Fin 12)) (k : ℤ) (coord : ℕ), coord ≤ sliceScan ep l k coord := by
  intro l
  induction l with
  | nil => intro k coord; exact Nat.le_refl _
  | cons i rest ih =>
    intro k coord
    rw [sliceScan]
    split
    · exact ih _ _
    · split
      · exact Nat.le_trans (Nat.le_add_right _ _) (ih _ _)
      · exact ih _ _

theorem sliceScan_k_nonpos (ep : Fin 12 → ℕ) :
    ∀ (l : List (Fin 12)) (k : ℤ) (coord : ℕ), k ≤ 0 → sliceScan ep l k coord = coord := by
  intro l
  induction l with
  | nil => intro k coord _; rfl
  | cons i rest ih =>
    intro k coord hk
    rw [sliceScan]
    rw [if_neg (show ¬ 0 < k by omega)]
    split
    · exact ih _ _ (by omega)
    · exact ih _ _ hk

/-- If the scan of `i :: rest` yields 0 with `k > 0` slice edges still expected
and a positive binomial at `i`, then position `i` holds a slice edge and the
tail scan also yields 0. -/
theorem sliceScan_zero_head (ep : Fin 12 → ℕ) (i : Fin 12) (rest : List (Fin 12))
    (k : ℤ) (coord : ℕ) (h0 : sliceScan ep (i :: rest) k coord = 0) (hk : 0 < k)
    (hkb : 0 < kBinom i.val k.toNat) :
    8 ≤ ep i ∧ sliceScan ep rest (k - 1) coord = 0 := by
  by_cases hi : 8 ≤ ep i
  · rw [sliceScan, if_pos hi] at h0
    exact ⟨hi, h0⟩
  · rw [sliceScan, if_neg hi, if_pos hk] at h0
    have := sliceScan_le ep rest k (coord + kBinom i.val k.toNat)
    omega

theorem finRange12_reverse :
    (List.finRange 12).reverse = [11, 10, 9, 8, 7, 6, 5, 4, 3, 2, 1, 0] := by decide

/-- `sliceCoord ep = 0` exactly when the four slice positions 8..11 hold
slice edges (values `≥ 8`); the scan never adds once the four slice edges have
been seen. -/
theorem sliceCoord_eq_zero_iff (ep : Fin 12 → ℕ) :
    sliceCoord ep = 0 ↔ (8 ≤ ep 8 ∧ 8 ≤ ep 9 ∧ 8 ≤ ep 10 ∧ 8 ≤ ep 11) := by
  unfold sliceCoord
  rw [finRange12_reverse]
  constructor
  · intro h0
    obtain ⟨h11, h0⟩ := sliceScan_zero_head ep 11 _ _ _ h0 (by omega) (by decide)
    obtain ⟨h10, h0⟩ := sliceScan_zero_head ep 10 _ _ _ h0 (by omega) (by decide)
    obtain ⟨h9, h0⟩ := sliceScan_zero_head ep 9 _ _ _ h0 (by omega) (by decide)
    obtain ⟨h8, h0⟩ := sliceScan_zero_head ep 8 _ _ _ h0 (by omega) (by decide)
    exact ⟨h8, h9, h10, h11⟩
  · rintro ⟨h8, h9, h10, h11⟩
    rw [sliceScan, if_pos h11, sliceScan, if_pos h10, sliceScan, if_pos h9,
      sliceScan, if_pos h8]
    exact sliceScan_k_nonpos ep _ _ 0 (by omega)

theorem p2_cOriTab : ∀ (mi : Fin 10) (i : Fin 8), cOriTab (kPhase2Moves mi) i = 0 := by decide

theorem p2_cOri (mi : Fin 10) (i : Fin 8) : cOriR (kPhase2Moves mi) i = 0 := by
  rw [cOriR_eq]
  exact p2_cOriTab mi i

theorem p2_eOriTab : ∀ (mi : Fin 10) (j : Fin 12), eOriTab (kPhase2Moves mi) j = 0 := by decide

theorem p2_eOri (mi : Fin 10) (j : Fin 12) : eOriR (kPhase2Moves mi) j = 0 := by
  rw [eOriR_eq]
  exact p2_eOriTab mi j

theorem p2_slicePosTab : ∀ (mi : Fin 10) (j : Fin 12), 8 ≤ j.val →
    8 ≤ (ePosTab (kPhase2Moves mi) j).val := by decide

theorem p2_slicePos (mi : Fin 10) (j : Fin 12) (h : 8 ≤ j.val) :
    8 ≤ (ePosT (kPhase2Moves mi) j).val := by
  rw [ePosT_eq]
  exact p2_slicePosTab mi j h

/-- C7 (amended): a cubie state with `CO = EO = SLICE = 0` whose suppressed
entries also satisfy their congruences (`co[7] ≡ 0 mod 3`, `eo[11] ≡ 0 mod 2` —
automatic on any real cubie state, where the orientation sums vanish) keeps all
five conditions under each of the 10 phase-2 moves. -/
theorem phase2_preserves_G1 (cc : CubieCube)
    (h1 : cornerOriCoord cc.co = 0) (h2 : edgeOriCoord cc.eo = 0)
    (h3 : sliceCoord cc.ep = 0)
    (h4 : cc.co 7 % 3 = 0) (h5 : cc.eo 11 % 2 = 0) (mi : Fin 10) :
    cornerOriCoord (tablesApply (kPhase2Moves mi) cc).co = 0 ∧
    edgeOriCoord (tablesApply (kPhase2Moves mi) cc).eo = 0 ∧
    sliceCoord (tablesApply (kPhase2Moves mi) cc).ep = 0 ∧
    (tablesApply (kPhase2Moves mi) cc).co 7 % 3 = 0 ∧
    (tablesApply (kPhase2Moves mi) cc).eo 11 % 2 = 0 := by
  obtain ⟨g0, g1, g2, g3, g4, g5, g6⟩ : cc.co 0 % 3 = 0 ∧ cc.co 1 % 3 = 0 ∧
      cc.co 2 % 3 = 0 ∧ cc.co 3 % 3 = 0 ∧ cc.co 4 % 3 = 0 ∧ cc.co 5 % 3 = 0 ∧
      cc.co 6 % 3 = 0 := by
    unfold cornerOriCoord at h1
    omega
  have hco : ∀ i : Fin 8, cc.co i % 3 = 0 := by
    intro i
    fin_cases i
    exacts [g0, g1, g2, g3, g4, g5, g6, h4]
  obtain ⟨f0, f1, f2, f3, f4, f5, f6, f7, f8, f9, f10⟩ : cc.eo 0 % 2 = 0 ∧
      cc.eo 1 % 2 = 0 ∧ cc.eo 2 % 2 = 0 ∧ cc.eo 3 % 2 = 0 ∧ cc.eo 4 % 2 = 0 ∧
      cc.eo 5 % 2 = 0 ∧ cc.eo 6 % 2 = 0 ∧ cc.eo 7 % 2 = 0 ∧ cc.eo 8 % 2 = 0 ∧
      cc.eo 9 % 2 = 0 ∧ cc.eo 10 % 2 = 0 := by
    unfold edgeOriCoord at h2
    simp only [Nat.and_one_is_mod] at h2
    omega
  have heo : ∀ j : Fin 12, cc.eo j % 2 = 0 := by
    intro j
    fin_cases j
    exacts [f0, f1, f2, f3, f4, f5, f6, f7, f8, f9, f10, h5]
  have hsl : ∀ j : Fin 12, 8 ≤ j.val → 8 ≤ cc.ep j := by
    have hs4 := (sliceCoord_eq_zero_iff cc.ep).mp h3
    intro j hj
    fin_cases j <;>
      first
        | exact absurd hj (by decide)
        | exact hs4.1
        | exact hs4.2.1
        | exact hs4.2.2.1
        | exact hs4.2.2.2
  have hco2 : ∀ i : Fin 8, (tablesApply (kPhase2Moves mi) cc).co i = 0 := by
    intro i
    show (cc.co (cPosT (kPhase2Moves mi) i) + cOriR (kPhase2Moves mi) i) % 3 = 0
    rw [p2_cOri]
    have := hco (cPosT (kPhase2Moves mi) i)
    omega
  have heo2 : ∀ j : Fin 12, (tablesApply (kPhase2Moves mi) cc).eo j % 2 = 0 := by
    intro j
    show (cc.eo (ePosT (kPhase2Moves mi) j) ^^^ eOriR (kPhase2Moves mi) j) % 2 = 0
    rw [p2_eOri, Nat.xor_zero]
    exact heo _
  refine ⟨?_, ?_, ?_, ?_, ?_⟩
  · unfold cornerOriCoord
    rw [hco2 0, hco2 1, hco2 2, hco2 3, hco2 4, hco2 5, hco2 6]
  · unfold edgeOriCoord
    simp only [Nat.and_one_is_mod]
    rw [heo2 0, heo2 1, heo2 2, heo2 3, heo2 4, heo2 5, heo2 6, heo2 7, heo2 8,
      heo2 9, heo2 10]
  · rw [sliceCoord_eq_zero_iff]
    refine ⟨?_, ?_, ?_, ?_⟩ <;>
      exact hsl _ (p2_slicePos mi _ (by decide))
  · rw [hco2 7]
  · exact heo2 11

/-- The claim as stated is false: coordinates alone do not pin down `co[7]`
(`cornerOriCoord` reads only `co[0..6]`); a cubie state that is all-solved
except `co[7] = 1` has `CO = EO = SLICE = 0`, yet the phase-2 move `D`
(index 3 of the phase-2 list) carries the twisted corner into the coordinate
window and yields `CO ≠ 0`. -/
theorem phase2_preserves_G1_counterexample :
    cornerOriCoord (CubieCube.mk (fun i => i.val) (fun i => if i = 7 then 1 else 0)
        (fun j => j.val) (fun _ => 0)).co = 0 ∧
    edgeOriCoord (CubieCube.mk (fun i => i.val) (fun i => if i = 7 then 1 else 0)
        (fun j => j.val) (fun _ => 0)).eo = 0 ∧
    sliceCoord (CubieCube.mk (fun i => i.val) (fun i => if i = 7 then 1 else 0)
        (fun j => j.val) (fun _ => 0)).ep = 0 ∧
    kPhase2Moves 3 = Move.D ∧
    cornerOriCoord (tablesApply Move.D (CubieCube.mk (fun i => i.val)
        (fun i => if i = 7 then 1 else 0) (fun j => j.val) (fun _ => 0))).co ≠ 0 := by
  refine ⟨by decide, by decide, by decide, rfl, by decide⟩

theorem phase2_preserves_G1_witness :
    cornerOriCoord (tablesApply (kPhase2Moves 3) (toCubie solvedCube)).co = 0 ∧
    edgeOriCoord (tablesApply (kPhase2Moves 3) (toCubie solvedCube)).eo = 0 ∧
    sliceCoord (tablesApply (kPhase2Moves 3) (toCubie solvedCube)).ep = 0 ∧
    (tablesApply (kPhase2Moves 3) (toCubie solvedCube)).co 7 % 3 = 0 ∧
    (tablesApply (kPhase2Moves 3) (toCubie solvedCube)).eo 11 % 2 = 0 :=
  phase2_preserves_G1 (toCubie solvedCube) (by decide) (by decide) (by decide)
    (by decide) (by decide) 3


/-! ## The solver (`Solver::solve`): validation checks, move/prune tables and
the two-phase search.  Precomputed arrays whose entries are defined by a
formula are modelled by the defining formula (memoisation is observationally
equal); the BFS queues are modelled with enough fuel for every cell to be
processed once. -/

/-- `Cube::isSolved`: every facelet of a face equals its center facelet. -/
def isSolved (s : CubeState) : Bool :=
  decide (∀ f : Fin 6, ∀ k : Fin 9, s (I f k) = s (I f 4))

/-- The permutation-parity helper local to `Cube::isSolvable`: the number of
inverted pairs (`p[i] > p[j]` with `i < j`), taken `& 1`. -/
def parityFun {n : ℕ} (p : Fin n → ℤ) : ℕ :=
  ((Finset.univ : Finset (Fin n × Fin n)).filter fun x => x.1 < x.2 ∧ p x.2 < p x.1).card % 2

/-- The number of facelets of color `c` (`counts[c]` of `Cube::isSolvable`). -/
def colorCount (s : CubeState) (c : Color) : ℕ :=
  ((Finset.univ : Finset (Fin 54)).filter fun i => s i = c).card

/-- `Cube::isSolvable`: the five solvability checks in source order (color
counts; corner decode ranges, distinctness and twist sum; edge decode ranges,
distinctness and flip sum; equal corner/edge permutation parity). -/
def isSolvable (s : CubeState) : Bool :=
  decide (∀ c : Color, colorCount s c = 9) &&
  decide (∀ i : Fin 8, 0 ≤ getCornerPermutation s i ∧ getCornerPermutation s i < 8) &&
  decide (∀ i : Fin 8, 0 ≤ getCornerOrientation s i ∧ getCornerOrientation s i < 3) &&
  decide (∀ i j : Fin 8, i ≠ j → getCornerPermutation s i ≠ getCornerPermutation s j) &&
  decide ((∑ i : Fin 8, getCornerOrientation s i) % 3 = 0) &&
  decide (∀ i : Fin 12, 0 ≤ getEdgePermutation s i ∧ getEdgePermutation s i < 12) &&
  decide (∀ i : Fin 12, getEdgeOrientation s i = 0 ∨ getEdgeOrientation s i = 1) &&
  decide (∀ i j : Fin 12, i ≠ j → getEdgePermutation s i ≠ getEdgePermutation s j) &&
  decide ((∑ i : Fin 12, getEdgeOrientation s i) % 2 = 0) &&
  decide (parityFun (fun i => getCornerPermutation s i) =
    parityFun (fun i => getEdgePermutation s i))

/-- The solved cubie snapshot used as the base of every table row. -/
def solvedCubie : CubieCube := toCubie solvedCube

/-- All 18 moves in index order, the `for m = 0..17` loop. -/
def moveList : List Move :=
  [.U, .Up, .U2, .D, .Dp, .D2, .L, .Lp, .L2, .R, .Rp, .R2, .F, .Fp, .F2, .B, .Bp, .B2]

/-- Entry `coMove[co][m]` of the phase-1 CO transition table. -/
def coMoveT (co : ℕ) (m : Move) : ℕ :=
  cornerOriCoord (tablesApply m { solvedCubie with co := cornerOriFromCoord co }).co

/-- Entry `eoMove[eo][m]`. -/
def eoMoveT (eo : ℕ) (m : Move) : ℕ :=
  edgeOriCoord (tablesApply m { solvedCubie with eo := edgeOriFromCoord eo }).eo

/-- Entry `sliceMove[sl][m]`. -/
def sliceMoveT (sl : ℕ) (m : Move) : ℕ :=
  sliceCoord (tablesApply m { solvedCubie with ep := sliceFromCoord sl }).ep

/-- Entry `cpMove[cp][mi]` of the phase-2 CP transition table. -/
def cpMoveT (cp : ℕ) (mi : Fin 10) : ℕ :=
  perm8Coord (tablesApply (kPhase2Moves mi) { solvedCubie with cp := perm8FromCoord cp }).cp

/-- Entry `epMove[ep][mi]`: the permutation of the 8 non-slice edges with the
slice edges kept at home. -/
def epMoveT (ep : ℕ) (mi : Fin 10) : ℕ :=
  perm8Coord (fun i : Fin 8 =>
    (tablesApply (kPhase2Moves mi)
      { solvedCubie with
        ep := fun j => if h : j.val < 8 then perm8FromCoord ep ⟨j.val, h⟩ else j.val }).ep
      ⟨i.val, by omega⟩)

/-- Entry `spMove[sp][mi]`: the permutation of the slice edges among
positions 8..11. -/
def spMoveT (sp : ℕ) (mi : Fin 10) : ℕ :=
  perm4Coord (fun i : Fin 4 =>
    (tablesApply (kPhase2Moves mi)
      { solvedCubie with
        ep := fun j => if h : j.val - 8 < 4 ∧ 8 ≤ j.val then
          8 + perm4FromCoord sp ⟨j.val - 8, h.1⟩ else j.val }).ep
      ⟨8 + i.val, by omega⟩ - 8)

/-- The BFS loop of `buildPrunePhase1`: process queue entries in order,
relaxing the 18 successors of each cell; `fuel` bounds the number of queue
entries ever processed (each cell is pushed at most once). -/
def bfsLoop1 (sizeB : ℕ) (moveA moveB : ℕ → Move → ℕ) :
    ℕ → Array ℕ → Array ℕ → ℕ → Array ℕ
  | 0, prune, _, _ => prune
  | fuel + 1, prune, q, head =>
    if head < q.size then
      let idx := q.getD head 0
      let a := idx / sizeB
      let b := idx % sizeB
      let d := prune.getD idx 255
      let pq := moveList.foldl (fun (pq : Array ℕ × Array ℕ) m =>
        let na := moveA a m
        let nb := moveB b m
        let nidx := na * sizeB + nb
        if pq.1.getD nidx 255 ≠ 255 then pq
        else (pq.1.set! nidx (d + 1), pq.2.push nidx)) (prune, q)
      bfsLoop1 sizeB moveA moveB fuel pq.1 pq.2 (head + 1)
    else prune

/-- The BFS loop of `buildPrunePhase2` (10 phase-2 moves). -/
def bfsLoop2 (sizeB : ℕ) (moveA moveB : ℕ → Fin 10 → ℕ) :
    ℕ → Array ℕ → Array ℕ → ℕ → Array ℕ
  | 0, prune, _, _ => prune
  | fuel + 1, prune, q, head =>
    if head < q.size then
      let idx := q.getD head 0
      let a := idx / sizeB
      let b := idx % sizeB
      let d := prune.getD idx 255
      let pq := (List.finRange 10).foldl (fun (pq : Array ℕ × Array ℕ) mi =>
        let na := moveA a mi
        let nb := moveB b mi
        let nidx := na * sizeB + nb
        if pq.1.getD nidx 255 ≠ 255 then pq
        else (pq.1.set! nidx (d + 1), pq.2.push nidx)) (prune, q)
      bfsLoop2 sizeB moveA moveB fuel pq.1 pq.2 (head + 1)
    else prune

def pruneCoSliceT : Array ℕ :=
  bfsLoop1 495 coMoveT sliceMoveT (2187 * 495) ((Array.mkArray (2187 * 495) 255).set! 0 0) #[0] 0

def pruneEoSliceT : Array ℕ :=
  bfsLoop1 495 eoMoveT sliceMoveT (2048 * 495) ((Array.mkArray (2048 * 495) 255).set! 0 0) #[0] 0

def pruneCpSpT : Array ℕ :=
  bfsLoop2 24 cpMoveT spMoveT (40320 * 24) ((Array.mkArray (40320 * 24) 255).set! 0 0) #[0] 0

def pruneEpSpT : Array ℕ :=
  bfsLoop2 24 epMoveT spMoveT (40320 * 24) ((Array.mkArray (40320 * 24) 255).set! 0 0) #[0] 0

/-- `searchPhase2`: depth-limited DFS on the three phase-2 coordinates,
returning the first found move path (C++ signals success through the shared
`path` vector; here the path is the returned list). -/
def searchPhase2 (cp ep sp : ℕ) (depth : ℕ) (lastMove : ℤ) (cancel : Bool) :
    Option (List Move) :=
  if cancel then none
  else
    let h1 := pruneCpSpT.getD (cp * 24 + sp) 255
    let h2 := pruneEpSpT.getD (ep * 24 + sp) 255
    if max h1 h2 > depth then none
    else
      match depth with
      | 0 => if cp = 0 ∧ ep = 0 ∧ sp = 0 then some [] else none
      | d + 1 =>
        (List.finRange 10).findSome? fun mi =>
          let move := kPhase2Moves mi
          if moveAllowedPrune (move.idx : ℤ) lastMove then
            (searchPhase2 (cpMoveT cp mi) (epMoveT ep mi) (spMoveT sp mi) d
              (move.idx : ℤ) cancel).map (fun p => move :: p)
          else none

/-- `edgePermCoord8_fromEp`. -/
def edgePermCoord8_fromEp (ep : Fin 12 → ℕ) : ℕ :=
  perm8Coord (fun i : Fin 8 => ep ⟨i.val, by omega⟩)

/-- `slicePermCoord_fromEp`. -/
def slicePermCoord_fromEp (ep : Fin 12 → ℕ) : ℕ :=
  perm4Coord (fun i : Fin 4 => ep ⟨8 + i.val, by omega⟩ - 8)

/-- `searchPhase1`: depth-limited DFS on the cubie state; at a phase-1 leaf in
G1, iterate the phase-2 depth up to `maxTotalDepth - pathLen`.  Returns the
phase-1 and phase-2 move paths. -/
def searchPhase1 (cc : CubieCube) (depth : ℕ) (lastMove : ℤ) (pathLen : ℕ)
    (maxTotalDepth : ℕ) (cancel : Bool) : Option (List Move × List Move) :=
  if cancel then none
  else
    let co := cornerOriCoord cc.co
    let eo := edgeOriCoord cc.eo
    let sl := sliceCoord cc.ep
    let h1 := pruneCoSliceT.getD (co * 495 + sl) 255
    let h2 := pruneEoSliceT.getD (eo * 495 + sl) 255
    if max h1 h2 > depth then none
    else
      match depth with
      | 0 =>
        if co = 0 ∧ eo = 0 ∧ sl = 0 then
          let cp := perm8Coord cc.cp
          let ep := edgePermCoord8_fromEp cc.ep
          let sp := slicePermCoord_fromEp cc.ep
          ((List.range (((maxTotalDepth : ℤ) - (pathLen : ℤ) + 1).toNat)).findSome? fun d2 =>
            searchPhase2 cp ep sp d2 (-1) cancel).map (fun p2 => ([], p2))
        else none
      | d + 1 =>
        moveList.findSome? fun m =>
          if moveAllowedPrune (m.idx : ℤ) lastMove then
            (searchPhase1 (tablesApply m cc) d (m.idx : ℤ) (pathLen + 1) maxTotalDepth
              cancel).map (fun pr => (m :: pr.1, pr.2))
          else none

/-- `Solver::solve(cube, cancel, progress)`.  The caller's cube is passed by
reference in C++; the embedding threads its state through and returns it
alongside the move list (progress counters are not modelled; the cancel flag is
the value read at every poll). -/
def solve (s : CubeState) (cancel : Bool) : List Move × CubeState :=
  if isSolved s then ([], s)
  else if isSolvable s = false then ([], s)
  else if cancel then ([], s)
  else
    let start := toCubie s
    match (List.range (12 + 1)).findSome? fun d1 =>
      if cancel then none
      else searchPhase1 start d1 (-1) 0 31 cancel with
    | some (p1, p2) => (p1 ++ p2, s)
    | none => ([], s)

/-- C6: `solve` returns the empty move sequence, before any search, when the
cube is already solved, when it is unsolvable, and when the cancel flag is
asserted at entry; every branch of the (total) function returns normally. -/
theorem solve_early_exits (s : CubeState) (cancel : Bool) :
    (isSolved s = true → solve s cancel = ([], s)) ∧
    (isSolvable s = false → solve s cancel = ([], s)) ∧
    (cancel = true → solve s cancel = ([], s)) := by
  refine ⟨fun h => ?_, fun h => ?_, fun h => ?_⟩
  · unfold solve
    rw [if_pos (by simp [h])]
  · unfold solve
    by_cases h1 : isSolved s
    · rw [if_pos (by simp [h1])]
    · rw [if_neg (by simp [h1]), if_pos h]
  · subst h
    unfold solve
    by_cases h1 : isSolved s
    · rw [if_pos (by simp [h1])]
    · by_cases h2 : isSolvable s = false
      · rw [if_neg (by simp [h1]), if_pos h2]
      · rw [if_neg (by simp [h1]), if_neg h2, if_pos rfl]

theorem solve_early_exits_witness :
    solve solvedCube false = ([], solvedCube) ∧
    solve (fun _ => Color.White) false = ([], fun _ => Color.White) ∧
    solve solvedCube true = ([], solvedCube) :=
  ⟨(solve_early_exits solvedCube false).1 (by decide),
    (solve_early_exits (fun _ => Color.White) false).2.1 (by decide),
    (solve_early_exits solvedCube true).2.2 rfl⟩

/-- C9: `solve` never mutates the caller's cube: the cube state it hands back
is the input state in every branch; the search works on the local `toCubie`
snapshot only. -/
theorem solve_preserves_cube (s : CubeState) (cancel : Bool) :
    (solve s cancel).2 = s := by
  unfold solve
  by_cases h1 : isSolved s
  · rw [if_pos (by simp [h1])]
  · rw [if_neg (by simp [h1])]
    by_cases h2 : isSolvable s = false
    · rw [if_pos h2]
    · rw [if_neg h2]
      by_cases h3 : cancel = true
      · rw [if_pos (by simp [h3])]
      · rw [if_neg (by simp [h3])]
        show (match (List.range (12 + 1)).findSome? (fun d1 =>
            if cancel then none else searchPhase1 (toCubie s) d1 (-1) 0 31 cancel) with
          | some (p1, p2) => (p1 ++ p2, s)
          | none => ([], s)).2 = s
        rcases hM : (List.range (12 + 1)).findSome? (fun d1 =>
            if cancel then none else searchPhase1 (toCubie s) d1 (-1) 0 31 cancel) with _ | pr
        · rfl
        · rcases pr with ⟨p1, p2⟩
          rfl


/-! ## C3: invariants of reachable states -/

/-- The inversion count of a permutation of `Fin n` (pairs `i < j` with
`π j < π i`); its parity is the permutation's sign. -/
def invCardP {n : ℕ} (π : Equiv.Perm (Fin n)) : ℕ :=
  ((Finset.univ : Finset (Fin n × Fin n)).filter fun x => x.1 < x.2 ∧ π x.2 < π x.1).card

theorem signAux_eq_pow_invCardP {n : ℕ} (π : Equiv.Perm (Fin n)) :
    Equiv.Perm.signAux π = (-1 : ℤˣ) ^ invCardP π := by
  unfold Equiv.Perm.signAux invCardP
  have h1 : ∏ x ∈ Equiv.Perm.finPairsLT n, (if π x.1 ≤ π x.2 then (-1 : ℤˣ) else 1)
      = ∏ y ∈ (Finset.univ : Finset (Fin n × Fin n)).filter (fun y => y.1 < y.2),
          (if π y.2 ≤ π y.1 then (-1 : ℤˣ) else 1) := by
    refine Finset.prod_nbij' (fun x => (x.2, x.1)) (fun y => ⟨y.2, y.1⟩) ?_ ?_ ?_ ?_ ?_
    · intro a ha
      rw [Equiv.Perm.mem_finPairsLT] at ha
      simp only [Finset.mem_filter, Finset.mem_univ, true_and]
      exact ha
    · intro a ha
      simp only [Finset.mem_filter, Finset.mem_univ, true_and] at ha
      rw [Equiv.Perm.mem_finPairsLT]
      exact ha
    · intro a _; rfl
    · intro a _; rfl
    · intro a _; rfl
  rw [h1]
  have h2 : ∀ y ∈ (Finset.univ : Finset (Fin n × Fin n)).filter (fun y => y.1 < y.2),
      (if π y.2 ≤ π y.1 then (-1 : ℤˣ) else 1) = (if π y.2 < π y.1 then (-1 : ℤˣ) else 1) := by
    intro y hy
    simp only [Finset.mem_filter, Finset.mem_univ, true_and] at hy
    by_cases hlt : π y.2 < π y.1
    · rw [if_pos hlt.le, if_pos hlt]
    · rw [if_neg hlt, if_neg ?_]
      intro hle
      exact hlt (lt_of_le_of_ne hle fun he => absurd (π.injective he) (ne_of_lt hy).symm)
  rw [Finset.prod_congr rfl h2,
    Finset.prod_ite (fun _ => (-1 : ℤˣ)) (fun _ => (1 : ℤˣ)),
    Finset.prod_const, Finset.prod_const_one, mul_one, Finset.filter_filter]

theorem neg_one_pow_units_mod {a b : ℕ} (h : (-1 : ℤˣ) ^ a = (-1 : ℤˣ) ^ b) :
    a % 2 = b % 2 := by
  have ha : (-1 : ℤˣ) ^ a = (-1 : ℤˣ) ^ (a % 2) := by
    conv_lhs => rw [← Nat.div_add_mod a 2]
    rw [pow_add, pow_mul]
    norm_num
  have hb : (-1 : ℤˣ) ^ b = (-1 : ℤˣ) ^ (b % 2) := by
    conv_lhs => rw [← Nat.div_add_mod b 2]
    rw [pow_add, pow_mul]
    norm_num
  rw [ha, hb] at h
  rcases Nat.mod_two_eq_zero_or_one a with h1 | h1 <;>
    rcases Nat.mod_two_eq_zero_or_one b with h2 | h2 <;>
      rw [h1, h2] at h ⊢ <;> first | rfl | (exact absurd h (by decide))

theorem invCardP_mul_mod {n : ℕ} (f g : Equiv.Perm (Fin n)) :
    invCardP (f * g) % 2 = (invCardP f + invCardP g) % 2 := by
  have h := Equiv.Perm.signAux_mul f g
  rw [signAux_eq_pow_invCardP, signAux_eq_pow_invCardP, signAux_eq_pow_invCardP,
    ← pow_add] at h
  exact neg_one_pow_units_mod h

theorem parityFun_eq_invCardP {n : ℕ} (π : Equiv.Perm (Fin n)) (p : Fin n → ℤ)
    (hp : ∀ i, ((π i : Fin n) : ℤ) = p i) : parityFun p = invCardP π % 2 := by
  unfold parityFun invCardP
  have hset : ((Finset.univ : Finset (Fin n × Fin n)).filter fun x => x.1 < x.2 ∧ p x.2 < p x.1)
      = (Finset.univ.filter fun x => x.1 < x.2 ∧ π x.2 < π x.1) := by
    apply Finset.filter_congr
    intro x _
    rw [← hp x.1, ← hp x.2]
    constructor
    · rintro ⟨ha, hb⟩
      refine ⟨ha, ?_⟩
      rw [Fin.lt_def]
      exact_mod_cast hb
    · rintro ⟨ha, hb⟩
      refine ⟨ha, ?_⟩
      have := Fin.lt_def.mp hb
      exact_mod_cast this
  rw [hset]

theorem perm_of_valid {n : ℕ} (p : Fin n → ℤ) (hr : ∀ i, 0 ≤ p i ∧ p i < n)
    (hinj : ∀ i j, i ≠ j → p i ≠ p j) :
    ∃ π : Equiv.Perm (Fin n), ∀ i, ((π i : Fin n) : ℤ) = p i := by
  have hf : ∀ i, (p i).toNat < n := fun i => by have := hr i; omega
  have hfinj : Function.Injective (fun i => (⟨(p i).toNat, hf i⟩ : Fin n)) := by
    intro i j hij
    by_contra hne
    apply hinj i j hne
    have hv := congrArg Fin.val hij
    simp only [] at hv
    have h1 := (hr i).1
    have h2 := (hr j).1
    omega
  have hbij := Finite.injective_iff_bijective.mp hfinj
  refine ⟨Equiv.ofBijective _ hbij, fun i => ?_⟩
  show (((⟨(p i).toNat, hf i⟩ : Fin n)) : ℤ) = p i
  have := (hr i).1
  simp only []
  omega

theorem cPosTab_linv : ∀ (m : Move) (i : Fin 8), cPosTab (inverseMove m) (cPosTab m i) = i := by
  decide

theorem cPosTab_rinv : ∀ (m : Move) (i : Fin 8), cPosTab m (cPosTab (inverseMove m) i) = i := by
  decide

theorem cPos_linv (m : Move) (i : Fin 8) : cPosT (inverseMove m) (cPosT m i) = i := by
  rw [cPosT_eq, cPosT_eq]
  exact cPosTab_linv m i

theorem cPos_rinv (m : Move) (i : Fin 8) : cPosT m (cPosT (inverseMove m) i) = i := by
  rw [cPosT_eq, cPosT_eq]
  exact cPosTab_rinv m i

/-- The corner-slot permutation of a move's record. -/
def cPerm (m : Move) : Equiv.Perm (Fin 8) :=
  ⟨cPosT m, cPosT (inverseMove m), cPos_linv m, cPos_rinv m⟩

theorem ePosTab_linv : ∀ (m : Move) (j : Fin 12), ePosTab (inverseMove m) (ePosTab m j) = j := by
  decide

theorem ePosTab_rinv : ∀ (m : Move) (j : Fin 12), ePosTab m (ePosTab (inverseMove m) j) = j := by
  decide

theorem ePos_linv (m : Move) (j : Fin 12) : ePosT (inverseMove m) (ePosT m j) = j := by
  rw [ePosT_eq, ePosT_eq]
  exact ePosTab_linv m j

theorem ePos_rinv (m : Move) (j : Fin 12) : ePosT m (ePosT (inverseMove m) j) = j := by
  rw [ePosT_eq, ePosT_eq]
  exact ePosTab_rinv m j

/-- The edge-slot permutation of a move's record. -/
def ePerm (m : Move) : Equiv.Perm (Fin 12) :=
  ⟨ePosT m, ePosT (inverseMove m), ePos_linv m, ePos_rinv m⟩

theorem movePerm_linv (m : Move) (i : Fin 54) :
    movePerm (inverseMove m) (movePerm m i) = i := by
  revert m i; decide

/-- Each move's facelet source map is a permutation of the 54 facelets. -/
def mEquiv (m : Move) : Fin 54 ≃ Fin 54 :=
  ⟨movePerm m, movePerm (inverseMove m), movePerm_linv m, movePerm_inv_cancel m⟩

theorem movePerm_center (m : Move) (f : Fin 6) : movePerm m (I f 4) = I f 4 := by
  revert m f; decide

/-- The concrete-table versions of the record permutations. -/
def cPermTab (m : Move) : Equiv.Perm (Fin 8) :=
  ⟨cPosTab m, cPosTab (inverseMove m), cPosTab_linv m, cPosTab_rinv m⟩

def ePermTab (m : Move) : Equiv.Perm (Fin 12) :=
  ⟨ePosTab m, ePosTab (inverseMove m), ePosTab_linv m, ePosTab_rinv m⟩

theorem invCardP_congr {n : ℕ} (g h : Equiv.Perm (Fin n)) (he : ∀ i, g i = h i) :
    invCardP g = invCardP h := by
  unfold invCardP
  congr 1
  apply Finset.filter_congr
  intro x _
  rw [he x.1, he x.2]

theorem record_parity_tab : ∀ m : Move, invCardP (cPermTab m) % 2 = invCardP (ePermTab m) % 2 := by
  decide

theorem record_parity_match (m : Move) : invCardP (cPerm m) % 2 = invCardP (ePerm m) % 2 := by
  rw [invCardP_congr (cPerm m) (cPermTab m) (fun i => cPosT_eq m i),
    invCardP_congr (ePerm m) (ePermTab m) (fun j => ePosT_eq m j)]
  exact record_parity_tab m

theorem cOri_sumTab : ∀ m : Move, (∑ i : Fin 8, (cOriTab m i : ℤ)) % 3 = 0 := by decide

theorem cOri_sum (m : Move) : (∑ i : Fin 8, (cOriR m i : ℤ)) % 3 = 0 := by
  rw [Finset.sum_congr rfl (fun i _ => by rw [cOriR_eq])]
  exact cOri_sumTab m

theorem eOri_sumTab : ∀ m : Move, (∑ j : Fin 12, (eOriTab m j : ℤ)) % 2 = 0 := by decide

theorem eOri_sum (m : Move) : (∑ j : Fin 12, (eOriR m j : ℤ)) % 2 = 0 := by
  rw [Finset.sum_congr rfl (fun j _ => by rw [eOriR_eq])]
  exact eOri_sumTab m

theorem card_filter_comp_equiv {α : Type} [Fintype α] [DecidableEq α] (e : α ≃ α)
    (P : α → Prop) [DecidablePred P] :
    (Finset.univ.filter fun i => P (e i)).card = (Finset.univ.filter P).card := by
  have hmap : (Finset.univ.filter fun i => P (e i))
      = (Finset.univ.filter P).map e.symm.toEmbedding := by
    ext a
    simp only [Finset.mem_filter, Finset.mem_univ, true_and, Finset.mem_map,
      Equiv.coe_toEmbedding]
    constructor
    · intro h
      exact ⟨e a, h, e.symm_apply_apply a⟩
    · rintro ⟨b, hb, rfl⟩
      simpa using hb
  rw [hmap, Finset.card_map]


theorem getCornerPermutation_applyMove (s : CubeState) (m : Move) (i : Fin 8) :
    getCornerPermutation (applyMove m s) i = getCornerPermutation s (cPosT m i) := by
  unfold getCornerPermutation
  rw [tripleAt_applyMove]
  exact decodeCornerPerm_rot (tripleAt s (cPosT m i)) ⟨cOriR m i, cOriR_lt m i⟩

theorem getEdgePermutation_applyMove (s : CubeState) (m : Move) (j : Fin 12) :
    getEdgePermutation (applyMove m s) j = getEdgePermutation s (ePosT m j) := by
  unfold getEdgePermutation
  rw [pairAt_applyMove]
  exact decodeEdgePerm_flip (pairAt s (ePosT m j)) ⟨eOriR m j, eOriR_lt m j⟩

theorem getCornerOrientation_applyMove (s : CubeState) (m : Move) (i : Fin 8)
    (h : 0 ≤ getCornerPermutation s (cPosT m i)) :
    getCornerOrientation (applyMove m s) i
      = (getCornerOrientation s (cPosT m i) + (cOriR m i : ℤ)) % 3 := by
  unfold getCornerOrientation
  rw [tripleAt_applyMove]
  obtain ⟨c, hcm⟩ := cornerMatch_of_nonneg h
  exact decodeCornerOri_rot (tripleAt s (cPosT m i)) c ⟨cOriR m i, cOriR_lt m i⟩ hcm

theorem getEdgeOrientation_applyMove (s : CubeState) (m : Move) (j : Fin 12)
    (h : 0 ≤ getEdgePermutation s (ePosT m j)) :
    getEdgeOrientation (applyMove m s) j
      = (getEdgeOrientation s (ePosT m j) + (eOriR m j : ℤ)) % 2 := by
  unfold getEdgeOrientation
  rw [pairAt_applyMove]
  obtain ⟨e, hem⟩ := edgeMatch_of_nonneg h
  exact decodeEdgeOri_flip (pairAt s (ePosT m j)) e ⟨eOriR m j, eOriR_lt m j⟩ hem

/-- The solvability check is preserved by every move. -/
theorem isSolvable_applyMove (s : CubeState) (m : Move) (h : isSolvable s = true) :
    isSolvable (applyMove m s) = true := by
  unfold isSolvable at h ⊢
  simp only [Bool.and_eq_true, decide_eq_true_eq] at h ⊢
  obtain ⟨⟨⟨⟨⟨⟨⟨⟨⟨h1, h2⟩, h3⟩, h4⟩, h5⟩, h6⟩, h7⟩, h8⟩, h9⟩, h10⟩ := h
  refine ⟨⟨⟨⟨⟨⟨⟨⟨⟨?_, ?_⟩, ?_⟩, ?_⟩, ?_⟩, ?_⟩, ?_⟩, ?_⟩, ?_⟩, ?_⟩
  · intro c
    have hcard := card_filter_comp_equiv (mEquiv m) (fun j => s j = c)
    unfold colorCount
    rw [applyMove_eq]
    exact hcard.trans (h1 c)
  · intro i
    rw [getCornerPermutation_applyMove]
    exact h2 _
  · intro i
    unfold getCornerOrientation
    have hr := decodeCornerOri_range (tripleAt (applyMove m s) i)
    exact ⟨hr.1, by omega⟩
  · intro i j hne
    rw [getCornerPermutation_applyMove, getCornerPermutation_applyMove]
    exact h4 _ _ (fun he => hne ((cPerm m).injective he))
  · have hco : ∀ i : Fin 8, getCornerOrientation (applyMove m s) i
        = (getCornerOrientation s (cPosT m i) + (cOriR m i : ℤ)) % 3 :=
      fun i => getCornerOrientation_applyMove s m i (h2 (cPosT m i)).1
    rw [Finset.sum_congr rfl (fun i _ => hco i), ← Finset.sum_int_mod,
      Finset.sum_add_distrib]
    have hreindex : (∑ i : Fin 8, getCornerOrientation s (cPosT m i))
        = ∑ i : Fin 8, getCornerOrientation s i :=
      Equiv.sum_comp (cPerm m) (fun i => getCornerOrientation s i)
    rw [hreindex]
    have hs2 := cOri_sum m
    omega
  · intro j
    rw [getEdgePermutation_applyMove]
    exact h6 _
  · intro j
    unfold getEdgeOrientation
    exact decodeEdgeOri_range (pairAt (applyMove m s) j)
  · intro i j hne
    rw [getEdgePermutation_applyMove, getEdgePermutation_applyMove]
    exact h8 _ _ (fun he => hne ((ePerm m).injective he))
  · have heo : ∀ j : Fin 12, getEdgeOrientation (applyMove m s) j
        = (getEdgeOrientation s (ePosT m j) + (eOriR m j : ℤ)) % 2 :=
      fun j => getEdgeOrientation_applyMove s m j (h6 (ePosT m j)).1
    rw [Finset.sum_congr rfl (fun j _ => heo j), ← Finset.sum_int_mod,
      Finset.sum_add_distrib]
    have hreindex : (∑ j : Fin 12, getEdgeOrientation s (ePosT m j))
        = ∑ j : Fin 12, getEdgeOrientation s j :=
      Equiv.sum_comp (ePerm m) (fun j => getEdgeOrientation s j)
    rw [hreindex]
    have hs2 := eOri_sum m
    omega
  · obtain ⟨pc, hpc⟩ := perm_of_valid (fun i => getCornerPermutation s i) h2 h4
    obtain ⟨pe, hpe⟩ := perm_of_valid (fun j => getEdgePermutation s j) h6 h8
    have hc2 : parityFun (fun i => getCornerPermutation (applyMove m s) i)
        = invCardP (pc * cPerm m) % 2 :=
      parityFun_eq_invCardP (pc * cPerm m) _ (fun i => by
        rw [Equiv.Perm.mul_apply]
        exact (hpc (cPerm m i)).trans (getCornerPermutation_applyMove s m i).symm)
    have he2 : parityFun (fun j => getEdgePermutation (applyMove m s) j)
        = invCardP (pe * ePerm m) % 2 :=
      parityFun_eq_invCardP (pe * ePerm m) _ (fun j => by
        rw [Equiv.Perm.mul_apply]
        exact (hpe (ePerm m j)).trans (getEdgePermutation_applyMove s m j).symm)
    rw [hc2, he2, invCardP_mul_mod, invCardP_mul_mod]
    have hqc := parityFun_eq_invCardP pc _ hpc
    have hqe := parityFun_eq_invCardP pe _ hpe
    rw [hqc, hqe] at h10
    have hrm := record_parity_match m
    omega

theorem applyMoves_solvable : ∀ (ms : List Move) (s : CubeState),
    isSolvable s = true → isSolvable (applyMoves ms s) = true := by
  intro ms
  induction ms with
  | nil => exact fun s h => h
  | cons m tl ih => exact fun s h => ih _ (isSolvable_applyMove s m h)

theorem applyMoves_center : ∀ (ms : List Move) (s : CubeState),
    (∀ f : Fin 6, s (I f 4) = kFaceColor f) →
    ∀ f : Fin 6, applyMoves ms s (I f 4) = kFaceColor f := by
  intro ms
  induction ms with
  | nil => exact fun s h => h
  | cons m tl ih =>
    intro s h
    refine ih _ (fun f => ?_)
    show applyMove m s (I f 4) = kFaceColor f
    rw [applyMove_eq]
    show s (movePerm m (I f 4)) = kFaceColor f
    rw [movePerm_center]
    exact h f

theorem solvedCube_solvable : isSolvable solvedCube = true := by decide


/-- C3: every state reached from the solved cube by legal moves satisfies all
five solvability invariants — each color appears exactly 9 times, every center
facelet keeps its home color, the corner and edge decodings are permutations
of `{0..7}` and `{0..11}` (in range and pairwise distinct), the corner
orientations sum to 0 mod 3, the edge orientations sum to 0 mod 2, and the
corner and edge permutation parities agree — and consequently `isSolvable`
returns true on every reachable state. -/
theorem reachable_invariants (ms : List Move) :
    (∀ c : Color, colorCount (applyMoves ms solvedCube) c = 9) ∧
    (∀ f : Fin 6, applyMoves ms solvedCube (I f 4) = kFaceColor f) ∧
    (∀ i : Fin 8, 0 ≤ getCornerPermutation (applyMoves ms solvedCube) i ∧
      getCornerPermutation (applyMoves ms solvedCube) i < 8) ∧
    (∀ i j : Fin 8, i ≠ j → getCornerPermutation (applyMoves ms solvedCube) i ≠
      getCornerPermutation (applyMoves ms solvedCube) j) ∧
    (∀ i : Fin 12, 0 ≤ getEdgePermutation (applyMoves ms solvedCube) i ∧
      getEdgePermutation (applyMoves ms solvedCube) i < 12) ∧
    (∀ i j : Fin 12, i ≠ j → getEdgePermutation (applyMoves ms solvedCube) i ≠
      getEdgePermutation (applyMoves ms solvedCube) j) ∧
    ((∑ i : Fin 8, getCornerOrientation (applyMoves ms solvedCube) i) % 3 = 0) ∧
    ((∑ j : Fin 12, getEdgeOrientation (applyMoves ms solvedCube) j) % 2 = 0) ∧
    (parityFun (fun i => getCornerPermutation (applyMoves ms solvedCube) i) =
      parityFun (fun j => getEdgePermutation (applyMoves ms solvedCube) j)) ∧
    isSolvable (applyMoves ms solvedCube) = true := by
  have hs := applyMoves_solvable ms solvedCube solvedCube_solvable
  have hcent := applyMoves_center ms solvedCube (by decide)
  have h := hs
  unfold isSolvable at h
  simp only [Bool.and_eq_true, decide_eq_true_eq] at h
  obtain ⟨⟨⟨⟨⟨⟨⟨⟨⟨h1, h2⟩, h3⟩, h4⟩, h5⟩, h6⟩, h7⟩, h8⟩, h9⟩, h10⟩ := h
  exact ⟨h1, hcent, h2, h4, h6, h8, h5, h9, h10, hs⟩

end Rubcs
